import Mathlib

/-!
# Verification of the deep-parser multi-route retrieval-and-fusion engine

Shallow embedding of `src/deep_parser/retrieval/fusion.py`,
`src/deep_parser/retrieval/query_rewriter.py` and
`src/deep_parser/retrieval/retriever.py`.

Python dictionaries are modelled as insertion-ordered association lists
(Python 3.7+ dicts preserve insertion order), Python floats as rationals
(`ℚ`), and candidate records (untyped "bag of fields" dicts) as association
lists from string keys to a small value type `PyVal`.  Backend calls and the
LLM call are modelled as `Except`-valued outcome parameters: the code under
verification only ever pattern-matches on success/failure of those calls.
-/

namespace DeepParser

/-- Model of the Python values that appear in candidate records and parsed
JSON: strings, numbers (floats, modelled as `ℚ`), `None`, and lists of
strings (keyword lists). -/
inductive PyVal where
  | str : String → PyVal
  | num : ℚ → PyVal
  | nil : PyVal
  | strList : List String → PyVal
deriving DecidableEq, Repr

/-- Python truthiness (`if not chunk_id`): `None`, `""`, `0` and `[]` are
falsy, everything else truthy. -/
def PyVal.truthy : PyVal → Bool
  | .str s => s ≠ ""
  | .num q => q ≠ 0
  | .nil => false
  | .strList l => l ≠ []

/-- A candidate record: a Python dict with string keys, modelled as an
insertion-ordered association list with unique keys. -/
abbrev Rec := List (String × PyVal)

/-- First-match association-list lookup: the semantics of reading a Python
dict key (dict keys are unique, so first match is the only match). -/
def alookup {κ α : Type} [DecidableEq κ] (k : κ) : List (κ × α) → Option α
  | [] => none
  | (k₂, v) :: rest => if k₂ = k then some v else alookup k rest

/-- Model of `result.get("score", 0.0)` — a missing (or non-numeric) score reads as
`0.0`.  (In Python a non-numeric score value would make the later arithmetic
raise; record well-formedness keeps scores numeric.) -/
def getScore (r : Rec) : ℚ :=
  match alookup "score" r with
  | some (.num q) => q
  | _ => 0

/-- Model of `result.get("chunk_id")` — missing key reads as Python `None`. -/
def getCid (r : Rec) : PyVal :=
  (alookup "chunk_id" r).getD .nil

/-- Stable insertion of an element into a score-descending list: the new
element (which comes from earlier in the original list) goes before the
first element whose score does not exceed it. -/
def insertScoreDesc {α : Type} (sc : α → ℚ) (a : α) : List α → List α
  | [] => [a]
  | x :: xs => if sc x ≤ sc a then a :: x :: xs else x :: insertScoreDesc sc a xs

/-- Stable sort by score descending: the model of Python's stable
`list.sort(key=lambda x: x["score"], reverse=True)` /
`sorted(results, key=..., reverse=True)`. -/
def sortScoreDesc {α : Type} (sc : α → ℚ) : List α → List α
  | [] => []
  | a :: l => insertScoreDesc sc a (sortScoreDesc sc l)

/-- The per-`chunk_id` accumulator value created by
`defaultdict(lambda: {"route_scores": {}, "final_score": 0.0})` plus the
passthrough fields copied from the first record that supplies each key. -/
structure Entry where
  route_scores : List (String × ℚ)
  final_score : ℚ
  fields : List (String × PyVal)
deriving DecidableEq, Repr

def Entry.empty : Entry := ⟨[], 0, []⟩

/-- Model of `key in all_results[chunk_id]`: the dict starts out with the
`route_scores` and `final_score` keys and additionally holds every copied
field key. -/
def Entry.hasKey (e : Entry) (k : String) : Bool :=
  k = "route_scores" || k = "final_score" || (alookup k e.fields).isSome

/-- The copy loop `for key, value in result.items(): if key not in
all_results[chunk_id]: all_results[chunk_id][key] = value`. -/
def copyFields (e : Entry) : List (String × PyVal) → Entry
  | [] => e
  | kv :: rest =>
      if e.hasKey kv.1 then copyFields e rest
      else copyFields { e with fields := e.fields ++ [kv] } rest

/-- Python dict assignment `d[k] = v`: replaces the binding in place if the
key exists, otherwise appends it. -/
def setKey (k : String) (v : ℚ) : List (String × ℚ) → List (String × ℚ)
  | [] => [(k, v)]
  | (k₂, v₂) :: rest => if k₂ = k then (k, v) :: rest else (k₂, v₂) :: setKey k v rest

/-- One record's effect on its accumulator entry:
`all_results[cid]["route_scores"][route] = rscore`,
`all_results[cid]["final_score"] += incr`, then the field-copy loop. -/
def Entry.add (e : Entry) (route : String) (rscore incr : ℚ) (r : Rec) : Entry :=
  copyFields
    { e with route_scores := setKey route rscore e.route_scores,
             final_score := e.final_score + incr } r

/-- The fusion accumulator `all_results`: a `defaultdict` keyed by
`chunk_id` values, in first-touch (insertion) order. -/
abbrev Acc := List (PyVal × Entry)

/-- Model of the `defaultdict` access-and-mutate for one record: update the existing
entry for `cid`, or create a fresh one at the end. -/
def updAcc (cid : PyVal) (route : String) (rscore incr : ℚ) (r : Rec) : Acc → Acc
  | [] => [(cid, Entry.empty.add route rscore incr r)]
  | (c, e) :: rest =>
      if c = cid then (c, e.add route rscore incr r) :: rest
      else (c, e) :: updAcc cid route rscore incr r rest

/-- A fused record as materialized by the output loop: `data["score"] =
data["final_score"]; data["chunk_id"] = chunk_id` overwrite whatever was
copied for those keys, so the structure carries them separately. -/
structure FusedRec where
  chunk_id : PyVal
  score : ℚ
  route_scores : List (String × ℚ)
  fields : List (String × PyVal)
deriving DecidableEq, Repr

/-- Reading a key of the fused dict: `score` and `chunk_id` were overwritten
by the output loop; other keys come from the copied fields. -/
def FusedRec.get (fu : FusedRec) (k : String) : Option PyVal :=
  if k = "score" then some (.num fu.score)
  else if k = "chunk_id" then some fu.chunk_id
  else alookup k fu.fields

def accToFused (p : PyVal × Entry) : FusedRec :=
  ⟨p.1, p.2.final_score, p.2.route_scores, p.2.fields⟩

/-- Weight renormalization (fusion.py lines 53-65): divide by the total, or
fall back to `1/len(weights)` for every key of `weights` when the total is
zero. -/
def normalizeWeights (w : List (String × ℚ)) : List (String × ℚ) :=
  let total := (w.map Prod.snd).sum
  if total = 0 then w.map (fun p => (p.1, 1 / (w.length : ℚ)))
  else w.map (fun p => (p.1, p.2 / total))

/-- Model of `normalized_weights.get(route, 0.0)`. -/
def lookupWeight (nw : List (String × ℚ)) (route : String) : ℚ :=
  (alookup route nw).getD 0

/-- Model of `min(scores)` of a nonempty list (the empty case is unreachable: the
route loop skips empty result lists). -/
def listMin : List ℚ → ℚ
  | [] => 0
  | x :: xs => xs.foldl min x

/-- Model of `max(scores)` of a nonempty list. -/
def listMax : List ℚ → ℚ
  | [] => 0
  | x :: xs => xs.foldl max x

/-- Min-max normalization of one score (fusion.py lines 88-92):
`(score - min) / range` when the range is positive, else `1.0`. -/
def minMaxNorm (m range s : ℚ) : ℚ :=
  if 0 < range then (s - m) / range else 1

/-- The normalized scores `weighted_sum` computes for one route's result
list, in list order. -/
def normalizeRoute (results : List Rec) : List ℚ :=
  let scores := results.map getScore
  scores.map (minMaxNorm (listMin scores) (listMax scores - listMin scores))

/-- The per-record body of the `weighted_sum` route loop (fusion.py lines
83-100): skip falsy `chunk_id`s, min-max normalize the score, accumulate. -/
def wsStep (route : String) (weight m range : ℚ) (acc : Acc) (r : Rec) : Acc :=
  let cid := getCid r
  if ¬ cid.truthy then acc
  else
    let ns := minMaxNorm m range (getScore r)
    updAcc cid route ns (ns * weight) r acc

/-- Processing of one route inside `weighted_sum` (fusion.py lines 71-100):
skip empty routes, compute the route's min/max/weight, then fold its records
into the accumulator. -/
def wsRoute (nw : List (String × ℚ)) (acc : Acc) (route : String)
    (results : List Rec) : Acc :=
  if results.isEmpty then acc
  else
    let scores := results.map getScore
    results.foldl
      (wsStep route (lookupWeight nw route) (listMin scores)
        (listMax scores - listMin scores))
      acc

/-- Model of `FusionRanker.weighted_sum`. -/
def weightedSum (rb : List (String × List Rec)) (w : List (String × ℚ)) :
    List FusedRec :=
  if rb.isEmpty then []
  else
    let nw := normalizeWeights w
    let acc := rb.foldl (fun acc p => wsRoute nw acc p.1 p.2) []
    sortScoreDesc FusedRec.score (acc.map accToFused)

/-- The `enumerate(sorted_results, start=1)` loop of `FusionRanker.rrf`
(fusion.py lines 151-165): `rank` is the 1-based position in the
route-sorted list, the contribution is `1 / (k + rank)`. -/
def rrfFold (k : ℕ) (route : String) : ℕ → List Rec → Acc → Acc
  | _, [], acc => acc
  | rank, r :: rest, acc =>
      let cid := getCid r
      let acc₂ :=
        if ¬ cid.truthy then acc
        else
          let s := 1 / ((k : ℚ) + rank)
          updAcc cid route s s r acc
      rrfFold k route (rank + 1) rest acc₂

/-- Processing of one route inside `rrf`: skip empty routes, sort the
route's records by raw score descending, then rank-fold them. -/
def rrfRoute (k : ℕ) (acc : Acc) (route : String) (results : List Rec) : Acc :=
  if results.isEmpty then acc
  else rrfFold k route 1 (sortScoreDesc getScore results) acc

/-- Model of `FusionRanker.rrf` with its caller-overridable constant `k` (default
`60`). -/
def rrf (rb : List (String × List Rec)) (k : ℕ := 60) : List FusedRec :=
  if rb.isEmpty then []
  else
    let acc := rb.foldl (fun acc p => rrfRoute k acc p.1 p.2) []
    sortScoreDesc FusedRec.score (acc.map accToFused)

/-- Equal weights `{route: 1.0 for route in results_by_route.keys()}`. -/
def equalWeights (rb : List (String × List Rec)) : List (String × ℚ) :=
  rb.map (fun p => (p.1, 1))

/-- Model of `FusionRanker.fuse`: dispatch on the method string; `weights or {...}`
treats both `None` and the empty dict as absent. -/
def fuse (rb : List (String × List Rec)) (method : String)
    (weights : Option (List (String × ℚ))) : List FusedRec :=
  if method = "weighted_sum" then
    weightedSum rb (weights.getD (equalWeights rb))
  else if method = "rrf" then
    rrf rb 60
  else
    let w := match weights with
      | some w => if w.isEmpty then equalWeights rb else w
      | none => equalWeights rb
    weightedSum rb w

/-! ## Query rewriter (`query_rewriter.py`)

The LLM call plus `json.loads` of its response are modelled as one
`Except`-valued outcome parameter: either the call/parse chain failed, or it
produced a parsed JSON value. -/

/-- Parsed JSON as `json.loads` hands it to the rewriter: a list, an object,
or a bare scalar. -/
inductive JVal where
  | list : List PyVal → JVal
  | dict : List (String × PyVal) → JVal
  | prim : PyVal → JVal
deriving DecidableEq, Repr

/-- Model of Python `str()` applied to a scalar-ish value (the exact
rendering is irrelevant to the verified properties; only its type is). -/
def pyStrOfVal : PyVal → String
  | .str s => s
  | .num q => toString q
  | .nil => "None"
  | .strList l => toString l

/-- Model of Python `str()` applied to a parsed JSON value. -/
def pyStrOfJVal : JVal → String
  | .list l => toString (l.map pyStrOfVal)
  | .dict l => toString (l.map (fun p => p.1 ++ ": " ++ pyStrOfVal p.2))
  | .prim v => pyStrOfVal v

/-- The dict `{"query": ..., "keywords": [...]}` that every rewrite method
returns. -/
structure RewriteResult where
  query : PyVal
  keywords : List PyVal
deriving DecidableEq, Repr

/-- Model of `QueryRewriter.rewrite_keywords`: on any failure of the
generate-and-parse chain, return the original query with itself as the sole
keyword; a parsed non-list becomes a one-element keyword list via `str`. -/
def rewriteKeywords (query : String) (resp : Except String JVal) :
    RewriteResult :=
  match resp with
  | .error _ => ⟨.str query, [.str query]⟩
  | .ok v =>
      match v with
      | .list l => ⟨.str query, l⟩
      | other => ⟨.str query, [.str (pyStrOfJVal other)]⟩

/-- Model of `QueryRewriter.rewrite_llm`: a parsed non-dict makes `result.get` raise,
which the enclosing `except` turns into the same fallback as a failed
call/parse. -/
def rewriteLlm (query : String) (resp : Except String JVal) : RewriteResult :=
  match resp with
  | .error _ => ⟨.str query, [.str query]⟩
  | .ok v =>
      match v with
      | .dict entries =>
          let rq := (alookup "query" entries).getD (.str query)
          let kw := (alookup "keywords" entries).getD (.strList [query])
          match kw with
          | .strList l => ⟨rq, l.map .str⟩
          | other => ⟨rq, [.str (pyStrOfVal other)]⟩
      | _ => ⟨.str query, [.str query]⟩

/-- Model of `QueryRewriter.rewrite`: dispatch on the method string; an unknown
method falls back to the keywords method.  (The `params` argument of the
source is unused there and omitted here.) -/
def rewrite (query : String) (method : String) (resp : Except String JVal) :
    RewriteResult :=
  if method = "keywords" then rewriteKeywords query resp
  else if method = "llm" then rewriteLlm query resp
  else rewriteKeywords query resp

/-! ## Retrieval orchestrator (`retriever.py`) -/

/-- Model of the `request["rewrite"]` config. -/
structure RewriteCfg where
  enabled : Bool
  method : String
deriving DecidableEq, Repr

/-- Model of the `request["routes"]["vector"]` config. -/
structure VectorCfg where
  enabled : Bool
  backend : String
deriving DecidableEq, Repr

/-- Model of the `request["routes"]` config. -/
structure RoutesCfg where
  es_text : Bool
  vector : VectorCfg
deriving DecidableEq, Repr

/-- Model of the `request["fusion"]` config; `weights` defaults to the empty dict. -/
structure FusionCfg where
  method : String
  weights : List (String × ℚ)
deriving DecidableEq, Repr

/-- The retrieval request (`top_k` is a positive integer per the data model;
filters are opaque passthrough and do not influence the verified logic). -/
structure Request where
  query : String
  top_k : ℕ
  routes : RoutesCfg
  rewrite : RewriteCfg
  fusion : FusionCfg
deriving DecidableEq, Repr

/-- The outcomes of the external calls a single `retrieve` invocation can
make: one per search backend, plus the rewriter's LLM generate-and-parse
chain.  `Except.error` models the backend raising. -/
structure Backends where
  esText : Except String (List Rec)
  milvus : Except String (List Rec)
  esVector : Except String (List Rec)
  clickhouse : Except String (List Rec)
  llm : Except String JVal
deriving Repr

/-- The `try/except` of `_search_es_text` / `_search_vector`: a raising
backend is converted to an empty result list. -/
def caughtEmpty : Except String (List Rec) → List Rec
  | .ok r => r
  | .error _ => []

/-- Model of `RetrieverService._search_es_text`. -/
def searchEsText (be : Backends) : List Rec :=
  caughtEmpty be.esText

/-- Model of `RetrieverService._search_vector`: dispatch on the backend name; an
unknown backend yields an empty list (logged warning in the source). -/
def searchVector (be : Backends) (backend : String) : List Rec :=
  if backend = "milvus" then caughtEmpty be.milvus
  else if backend = "es" then caughtEmpty be.esVector
  else if backend = "clickhouse" then caughtEmpty be.clickhouse
  else []

/-- The task list built by `retrieve` (retriever.py lines 107-121): route
name paired with the route's (already failure-caught) results.  Since both
search helpers catch every exception internally, the `gather` result is
never an exception and `results_by_route` holds exactly these entries. -/
def buildTasks (req : Request) (be : Backends) : List (String × List Rec) :=
  (if req.routes.es_text then [("es_text", searchEsText be)] else [])
    ++ (if req.routes.vector.enabled then
          [("vector_" ++ req.routes.vector.backend,
            searchVector be req.routes.vector.backend)]
        else [])

/-- One formatted response entry (retriever.py lines 159-171); the
`metadata` sub-dict is flattened into its three fields. -/
structure FormattedResult where
  chunk_id : PyVal
  doc_id : PyVal
  score : PyVal
  route_scores : List (String × ℚ)
  content : PyVal
  keywords : PyVal
  level : PyVal
  order_index : PyVal
  chunk_type : PyVal
deriving DecidableEq, Repr

/-- Formatting of a fused record. -/
def formatFused (f : FusedRec) : FormattedResult where
  chunk_id := f.chunk_id
  doc_id := (f.get "doc_id").getD .nil
  score := .num f.score
  route_scores := f.route_scores
  content := (f.get "content").getD (.str "")
  keywords := (f.get "keywords").getD (.strList [])
  level := (f.get "level").getD (.num 0)
  order_index := (f.get "order_index").getD (.num 0)
  chunk_type := (f.get "chunk_type").getD (.str "original")

/-- Formatting of a raw single-route record (the `len(results_by_route) == 1`
branch feeds unfused records into the same formatting loop). -/
def formatRaw (r : Rec) : FormattedResult where
  chunk_id := (alookup "chunk_id" r).getD .nil
  doc_id := (alookup "doc_id" r).getD .nil
  score := (alookup "score" r).getD (.num 0)
  route_scores := []
  content := (alookup "content" r).getD (.str "")
  keywords := (alookup "keywords" r).getD (.strList [])
  level := (alookup "level" r).getD (.num 0)
  order_index := (alookup "order_index" r).getD (.num 0)
  chunk_type := (alookup "chunk_type" r).getD (.str "original")

/-- The response of `retrieve`. -/
structure Response where
  query_used : PyVal
  results : List FormattedResult
deriving DecidableEq, Repr

/-- Model of `RetrieverService.retrieve`: optional rewrite, fan-out to the enabled
routes (failures caught inside the helpers), fuse when more than one route
completed, truncate to `top_k`, format. -/
def retrieve (req : Request) (be : Backends) : Response :=
  let query_used :=
    if req.rewrite.enabled then (rewrite req.query req.rewrite.method be.llm).query
    else .str req.query
  let rb := buildTasks req be
  let results :=
    if 1 < rb.length then
      ((fuse rb req.fusion.method (some req.fusion.weights)).take req.top_k).map
        formatFused
    else
      match rb with
      | [(_, rs)] => (rs.take req.top_k).map formatRaw
      | _ => []
  ⟨query_used, results⟩

/-- The full (untruncated) fused-and-sorted, formatted pipeline output: what
`retrieve` would return with no `top_k` limit.  Used to state that the
response is a truncation of the full list. -/
def pipelineResults (req : Request) (be : Backends) : List FormattedResult :=
  let rb := buildTasks req be
  if 1 < rb.length then
    (fuse rb req.fusion.method (some req.fusion.weights)).map formatFused
  else
    match rb with
    | [(_, rs)] => rs.map formatRaw
    | _ => []

/-! ## Spec-side definitions

These follow the spec's wording (rank formula, first-route payload
precedence) and are compared against the embedded code. -/

/-- Spec side: the 1-based position of the first record carrying the given
`chunk_id` in a list, or `none`. -/
def rankOf (cid : PyVal) : List Rec → Option ℕ
  | [] => none
  | r :: rest => if getCid r = cid then some 1 else (rankOf cid rest).map (· + 1)

/-- Spec side (RRF): the candidate's score is the sum over all routes that
returned it of `1 / (k + rank)`, the rank taken in the route's raw-score
descending order. -/
def rrfSpecScore (rb : List (String × List Rec)) (k : ℕ) (cid : PyVal) : ℚ :=
  (rb.map (fun p =>
    match rankOf cid (sortScoreDesc getScore p.2) with
    | some rank => 1 / ((k : ℚ) + rank)
    | none => 0)).sum

/-- Spec side: the first record of a list whose `chunk_id` equals `cid`. -/
def findRec (cid : PyVal) : List Rec → Option Rec
  | [] => none
  | r :: rest => if getCid r = cid then some r else findRec cid rest

/-- Spec side: the record supplied by the first route (in iteration order
over `results_by_route`) that reported the given `chunk_id`. -/
def firstRecordFor (cid : PyVal) : List (String × List Rec) → Option Rec
  | [] => none
  | (_, rs) :: rest =>
      match findRec cid rs with
      | some r => some r
      | none => firstRecordFor cid rest

/-! ## Proof-layer definitions -/

/-- The keys of the accumulator, in first-touch order. -/
def accKeys (acc : Acc) : List PyVal := acc.map Prod.fst

/-- The accumulated `final_score` of a key (`0` when absent). -/
def accScore (acc : Acc) (c : PyVal) : ℚ :=
  ((alookup c acc).map Entry.final_score).getD 0

/-- The copied passthrough field value of a key. -/
def accFieldVal (acc : Acc) (c : PyVal) (f : String) : Option PyVal :=
  (alookup c acc).bind fun e => alookup f e.fields

/-- The accumulator invariant: keys are distinct and truthy. -/
def keysOk (acc : Acc) : Prop :=
  (accKeys acc).Nodup ∧ ∀ c ∈ accKeys acc, c.truthy

/-- The data-model invariant on one route's result list: within one route,
truthy `chunk_id` values are unique (spec §3: "within one route's result
list, `chunk_id` values are unique"). -/
def routeIdsOk (rs : List Rec) : Prop :=
  ((rs.map getCid).filter PyVal.truthy).Nodup

instance routeIdsOkDecidable (rs : List Rec) : Decidable (routeIdsOk rs) := by
  unfold routeIdsOk
  infer_instance

/-- The RRF contribution of the remaining records of one route, when
processing continues at the given 1-based rank. -/
def rrfContrib (k start : ℕ) (rs : List Rec) (c : PyVal) : ℚ :=
  match rankOf c rs with
  | some j => if c.truthy then 1 / ((k : ℚ) + start + j - 1) else 0
  | none => 0

/-- The RRF contribution of one whole route to a candidate. -/
def rrfRouteContrib (k : ℕ) (c : PyVal) (p : String × List Rec) : ℚ :=
  match rankOf c (sortScoreDesc getScore p.2) with
  | some j => if c.truthy then 1 / ((k : ℚ) + j) else 0
  | none => 0

/-- The accumulator built by `weighted_sum` before the output conversion. -/
def wsAcc (rb : List (String × List Rec)) (w : List (String × ℚ)) : Acc :=
  rb.foldl (fun acc p => wsRoute (normalizeWeights w) acc p.1 p.2) []

/-- The accumulator built by `rrf` before the output conversion. -/
def rrfAcc (rb : List (String × List Rec)) (k : ℕ) : Acc :=
  rb.foldl (fun acc p => rrfRoute k acc p.1 p.2) []

/-! ## Proof infrastructure: association lists, the accumulator, sorting -/

theorem alookup_append {κ α : Type} [DecidableEq κ] (k : κ) (l₁ l₂ : List (κ × α)) :
    alookup k (l₁ ++ l₂) =
      match alookup k l₁ with
      | some v => some v
      | none => alookup k l₂ := by
  induction l₁ with
  | nil => simp [alookup]
  | cons p rest ih =>
      obtain ⟨k₂, v⟩ := p
      by_cases h : k₂ = k <;> simp [alookup, h, ih]

theorem alookup_eq_none_iff {κ α : Type} [DecidableEq κ] (k : κ) (l : List (κ × α)) :
    alookup k l = none ↔ k ∉ l.map Prod.fst := by
  induction l with
  | nil => simp [alookup]
  | cons p rest ih =>
      obtain ⟨k₂, v⟩ := p
      by_cases h : k₂ = k
      · subst h; simp [alookup]
      · have h₂ : ¬k = k₂ := fun hq => h hq.symm
        simp [alookup, h, ih, h₂]

theorem alookup_of_mem_nodup {κ α : Type} [DecidableEq κ] {l : List (κ × α)}
    {k : κ} {v : α} (h : (k, v) ∈ l) (hnd : (l.map Prod.fst).Nodup) :
    alookup k l = some v := by
  induction l with
  | nil => simp at h
  | cons p rest ih =>
      obtain ⟨k₂, v₂⟩ := p
      rcases List.mem_cons.mp h with h₁ | h₁
      · obtain ⟨rfl, rfl⟩ := Prod.mk.injEq .. ▸ h₁
        simp [alookup]
      · have hk : k₂ ≠ k := by
          rintro rfl
          exact (List.nodup_cons.mp hnd).1 (List.mem_map.mpr ⟨(k₂, v), h₁, rfl⟩)
        simpa [alookup, hk] using ih h₁ (List.nodup_cons.mp hnd).2

theorem copyFields_route_scores (e : Entry) (l : List (String × PyVal)) :
    (copyFields e l).route_scores = e.route_scores := by
  induction l generalizing e with
  | nil => rfl
  | cons kv rest ih =>
      cases h : e.hasKey kv.1 <;> simp [copyFields, h, ih]

theorem copyFields_final_score (e : Entry) (l : List (String × PyVal)) :
    (copyFields e l).final_score = e.final_score := by
  induction l generalizing e with
  | nil => rfl
  | cons kv rest ih =>
      cases h : e.hasKey kv.1 <;> simp [copyFields, h, ih]

theorem copyFields_lookup_some (e : Entry) (l : List (String × PyVal)) (f : String)
    (v : PyVal) (h : alookup f e.fields = some v) :
    alookup f (copyFields e l).fields = some v := by
  induction l generalizing e with
  | nil => exact h
  | cons kv rest ih =>
      cases hk : e.hasKey kv.1
      · have h₂ : alookup f ({ e with fields := e.fields ++ [kv] } : Entry).fields
            = some v := by
          show alookup f (e.fields ++ [kv]) = some v
          rw [alookup_append, h]
        simpa [copyFields, hk] using ih _ h₂
      · simpa [copyFields, hk] using ih _ h

theorem copyFields_lookup_new (e : Entry) (l : List (String × PyVal)) (f : String)
    (h : alookup f e.fields = none) (h₁ : f ≠ "route_scores")
    (h₂ : f ≠ "final_score") :
    alookup f (copyFields e l).fields = alookup f l := by
  induction l generalizing e with
  | nil => simpa [alookup] using h
  | cons kv rest ih =>
      obtain ⟨k, v⟩ := kv
      by_cases hkf : k = f
      · have hk : e.hasKey k = false := by
          rw [hkf]; simp [Entry.hasKey, h, h₁, h₂]
        have hsome : alookup f ({ e with fields := e.fields ++ [(k, v)] } : Entry).fields
            = some v := by
          show alookup f (e.fields ++ [(k, v)]) = some v
          rw [alookup_append, h]
          simp [alookup, hkf]
        rw [show copyFields e ((k, v) :: rest)
              = copyFields { e with fields := e.fields ++ [(k, v)] } rest from by
            simp [copyFields, hk]]
        rw [copyFields_lookup_some _ rest f v hsome]
        simp [alookup, hkf]
      · cases hk : e.hasKey k
        · have hnone : alookup f ({ e with fields := e.fields ++ [(k, v)] } : Entry).fields
              = none := by
            show alookup f (e.fields ++ [(k, v)]) = none
            rw [alookup_append, h]
            simp [alookup, hkf]
          rw [show copyFields e ((k, v) :: rest)
                = copyFields { e with fields := e.fields ++ [(k, v)] } rest from by
              simp [copyFields, hk]]
          rw [ih _ hnone]
          simp [alookup, hkf]
        · rw [show copyFields e ((k, v) :: rest) = copyFields e rest from by
              simp [copyFields, hk]]
          rw [ih _ h]
          simp [alookup, hkf]

theorem Entry.add_final_score (e : Entry) (route : String) (rs incr : ℚ) (r : Rec) :
    (e.add route rs incr r).final_score = e.final_score + incr := by
  simp [Entry.add, copyFields_final_score]

theorem Entry.add_lookup_some (e : Entry) (route : String) (rs incr : ℚ) (r : Rec)
    (f : String) (v : PyVal) (h : alookup f e.fields = some v) :
    alookup f (e.add route rs incr r).fields = some v :=
  copyFields_lookup_some _ r f v h

theorem Entry.add_lookup_new (e : Entry) (route : String) (rs incr : ℚ) (r : Rec)
    (f : String) (h : alookup f e.fields = none) (h₁ : f ≠ "route_scores")
    (h₂ : f ≠ "final_score") :
    alookup f (e.add route rs incr r).fields = alookup f r :=
  copyFields_lookup_new _ r f h h₁ h₂

theorem accKeys_updAcc (cid : PyVal) (route : String) (rs incr : ℚ) (r : Rec)
    (acc : Acc) :
    accKeys (updAcc cid route rs incr r acc) =
      if cid ∈ accKeys acc then accKeys acc else accKeys acc ++ [cid] := by
  induction acc with
  | nil => simp [updAcc, accKeys]
  | cons p rest ih =>
      obtain ⟨c, e⟩ := p
      by_cases h : c = cid
      · subst h; simp [updAcc, accKeys]
      · have h₂ : ¬cid = c := fun hq => h hq.symm
        simp only [updAcc, if_neg h, accKeys, List.map_cons, List.mem_cons, h₂,
          false_or]
        have ih₂ := ih
        simp only [accKeys] at ih₂
        rw [ih₂]
        by_cases hm : cid ∈ List.map Prod.fst rest <;> simp [hm]

theorem accScore_updAcc (cid : PyVal) (route : String) (rs incr : ℚ) (r : Rec)
    (acc : Acc) (c : PyVal) :
    accScore (updAcc cid route rs incr r acc) c =
      accScore acc c + if c = cid then incr else 0 := by
  induction acc with
  | nil =>
      by_cases h : c = cid
      · subst h
        simp [updAcc, accScore, alookup, Entry.add_final_score, Entry.empty]
      · have h₂ : ¬cid = c := fun hq => h hq.symm
        simp [updAcc, accScore, alookup, h, h₂]
  | cons p rest ih =>
      obtain ⟨c₂, e⟩ := p
      by_cases h : c₂ = cid
      · subst h
        by_cases hc : c₂ = c
        · subst hc
          simp [updAcc, accScore, alookup, Entry.add_final_score]
        · have hc₂ : ¬c = c₂ := fun hq => hc hq.symm
          simp [updAcc, accScore, alookup, hc, hc₂]
      · by_cases hc : c₂ = c
        · subst hc
          have hcc : ¬c₂ = cid := h
          simp [updAcc, accScore, alookup, hcc, if_neg (fun hq : c₂ = cid => h hq)]
        · simpa [updAcc, accScore, alookup, h, hc] using ih

theorem accFieldVal_updAcc_ne (cid : PyVal) (route : String) (rs incr : ℚ)
    (r : Rec) (acc : Acc) (c : PyVal) (f : String) (h : c ≠ cid) :
    accFieldVal (updAcc cid route rs incr r acc) c f = accFieldVal acc c f := by
  induction acc with
  | nil =>
      have h₂ : ¬cid = c := fun hq => h hq.symm
      simp [updAcc, accFieldVal, alookup, h₂]
  | cons p rest ih =>
      obtain ⟨c₂, e⟩ := p
      by_cases hc : c₂ = cid
      · subst hc
        have h₂ : ¬c₂ = c := fun hq => h hq.symm
        simp [updAcc, accFieldVal, alookup, h₂]
      · by_cases hc₂ : c₂ = c
        · subst hc₂
          simp [updAcc, accFieldVal, alookup, hc]
        · simpa [updAcc, accFieldVal, alookup, hc, hc₂] using ih

theorem accFieldVal_updAcc_some (cid : PyVal) (route : String) (rs incr : ℚ)
    (r : Rec) (acc : Acc) (f : String) (v : PyVal)
    (h : accFieldVal acc cid f = some v) :
    accFieldVal (updAcc cid route rs incr r acc) cid f = some v := by
  induction acc with
  | nil => simp [accFieldVal, alookup] at h
  | cons p rest ih =>
      obtain ⟨c₂, e⟩ := p
      by_cases hc : c₂ = cid
      · subst hc
        simp only [accFieldVal, alookup, if_pos rfl, Option.bind_some] at h
        simp only [updAcc, if_pos rfl, accFieldVal, alookup, Option.bind_some]
        exact Entry.add_lookup_some e route rs incr r f v h
      · simp only [accFieldVal, alookup, hc, if_false] at h
        simpa [updAcc, hc, accFieldVal, alookup] using ih h

theorem accFieldVal_updAcc_new (cid : PyVal) (route : String) (rs incr : ℚ)
    (r : Rec) (acc : Acc) (f : String) (h : cid ∉ accKeys acc)
    (h₁ : f ≠ "route_scores") (h₂ : f ≠ "final_score") :
    accFieldVal (updAcc cid route rs incr r acc) cid f = alookup f r := by
  induction acc with
  | nil =>
      simp only [updAcc, accFieldVal, alookup, if_pos rfl, Option.bind_some]
      exact Entry.add_lookup_new Entry.empty route rs incr r f rfl h₁ h₂
  | cons p rest ih =>
      obtain ⟨c₂, e⟩ := p
      have hc : c₂ ≠ cid := by
        rintro rfl
        exact h (by simp [accKeys])
      have hrest : cid ∉ accKeys rest := fun hm => h (by simp [accKeys] at hm ⊢; right; exact hm)
      have hc₂ : ¬c₂ = cid := hc
      simpa [updAcc, hc₂, accFieldVal, alookup] using ih hrest

theorem insertScoreDesc_perm {α : Type} (sc : α → ℚ) (a : α) (l : List α) :
    List.Perm (insertScoreDesc sc a l) (a :: l) := by
  induction l with
  | nil => rfl
  | cons x xs ih =>
      by_cases h : sc x ≤ sc a
      · simp [insertScoreDesc, h]
      · simp only [insertScoreDesc, if_neg h]
        exact ((ih.cons x).trans (List.Perm.swap a x xs))

theorem sortScoreDesc_perm {α : Type} (sc : α → ℚ) (l : List α) :
    List.Perm (sortScoreDesc sc l) l := by
  induction l with
  | nil => rfl
  | cons a l ih =>
      exact (insertScoreDesc_perm sc a (sortScoreDesc sc l)).trans (ih.cons a)

theorem weightedSum_eq (rb : List (String × List Rec)) (w : List (String × ℚ)) :
    weightedSum rb w =
      if rb.isEmpty then []
      else sortScoreDesc FusedRec.score ((wsAcc rb w).map accToFused) := rfl

theorem rrf_eq (rb : List (String × List Rec)) (k : ℕ) :
    rrf rb k =
      if rb.isEmpty then []
      else sortScoreDesc FusedRec.score ((rrfAcc rb k).map accToFused) := rfl

theorem keysOk_updAcc (cid : PyVal) (route : String) (rs incr : ℚ) (r : Rec)
    (acc : Acc) (h : keysOk acc) (ht : cid.truthy) :
    keysOk (updAcc cid route rs incr r acc) := by
  obtain ⟨h₁, h₂⟩ := h
  constructor
  · rw [accKeys_updAcc]
    by_cases hm : cid ∈ accKeys acc
    · simpa [hm] using h₁
    · simp only [hm, if_false]
      refine List.Nodup.append h₁ (List.nodup_singleton _) ?_
      intro a ha hb
      simp only [List.mem_singleton] at hb
      subst hb
      exact hm ha
  · intro c hc
    rw [accKeys_updAcc] at hc
    by_cases hm : cid ∈ accKeys acc
    · rw [if_pos hm] at hc; exact h₂ c hc
    · rw [if_neg hm] at hc
      rcases List.mem_append.mp hc with h₃ | h₃
      · exact h₂ c h₃
      · simp only [List.mem_singleton] at h₃; subst h₃; exact ht

theorem keysOk_wsStep (route : String) (weight m range : ℚ) (acc : Acc) (r : Rec)
    (h : keysOk acc) : keysOk (wsStep route weight m range acc r) := by
  by_cases hg : (getCid r).truthy
  · simpa [wsStep, hg] using keysOk_updAcc _ route _ _ r acc h hg
  · simpa [wsStep, hg] using h

theorem keysOk_foldl_wsStep (route : String) (weight m range : ℚ) (rs : List Rec)
    (acc : Acc) (h : keysOk acc) :
    keysOk (rs.foldl (wsStep route weight m range) acc) := by
  induction rs generalizing acc with
  | nil => exact h
  | cons r rest ih => exact ih _ (keysOk_wsStep _ _ _ _ _ _ h)

theorem keysOk_wsRoute (nw : List (String × ℚ)) (acc : Acc) (route : String)
    (rs : List Rec) (h : keysOk acc) : keysOk (wsRoute nw acc route rs) := by
  unfold wsRoute
  split
  · exact h
  · exact keysOk_foldl_wsStep _ _ _ _ _ _ h

theorem keysOk_wsAcc (rb : List (String × List Rec)) (w : List (String × ℚ)) :
    keysOk (wsAcc rb w) := by
  have main : ∀ (rb : List (String × List Rec)) (acc : Acc), keysOk acc →
      keysOk (rb.foldl (fun acc p => wsRoute (normalizeWeights w) acc p.1 p.2) acc) := by
    intro rb
    induction rb with
    | nil => intro acc h; exact h
    | cons p rest ih =>
        intro acc h
        exact ih _ (keysOk_wsRoute _ _ _ _ h)
  exact main rb [] ⟨List.nodup_nil, by simp [accKeys]⟩

theorem keysOk_rrfFold (k : ℕ) (route : String) (rank : ℕ) (rs : List Rec)
    (acc : Acc) (h : keysOk acc) : keysOk (rrfFold k route rank rs acc) := by
  induction rs generalizing rank acc with
  | nil => exact h
  | cons r rest ih =>
      rw [show rrfFold k route rank (r :: rest) acc
            = rrfFold k route (rank + 1) rest
                (if ¬ (getCid r).truthy then acc
                 else updAcc (getCid r) route (1 / ((k : ℚ) + rank))
                   (1 / ((k : ℚ) + rank)) r acc) from rfl]
      by_cases hg : (getCid r).truthy
      · rw [if_neg (by simp [hg])]
        exact ih _ _ (keysOk_updAcc _ _ _ _ _ _ h hg)
      · rw [if_pos (by simp [hg])]
        exact ih _ _ h

theorem keysOk_rrfRoute (k : ℕ) (acc : Acc) (route : String) (rs : List Rec)
    (h : keysOk acc) : keysOk (rrfRoute k acc route rs) := by
  unfold rrfRoute
  split
  · exact h
  · exact keysOk_rrfFold _ _ _ _ _ h

theorem keysOk_rrfAcc (rb : List (String × List Rec)) (k : ℕ) :
    keysOk (rrfAcc rb k) := by
  have main : ∀ (rb : List (String × List Rec)) (acc : Acc), keysOk acc →
      keysOk (rb.foldl (fun acc p => rrfRoute k acc p.1 p.2) acc) := by
    intro rb
    induction rb with
    | nil => intro acc h; exact h
    | cons p rest ih =>
        intro acc h
        exact ih _ (keysOk_rrfRoute _ _ _ _ h)
  exact main rb [] ⟨List.nodup_nil, by simp [accKeys]⟩

theorem mem_accKeys_updAcc {c cid : PyVal} {route : String} {rs incr : ℚ}
    {r : Rec} {acc : Acc} (h : c ∈ accKeys (updAcc cid route rs incr r acc)) :
    c ∈ accKeys acc ∨ c = cid := by
  rw [accKeys_updAcc] at h
  by_cases hm : cid ∈ accKeys acc
  · rw [if_pos hm] at h; exact Or.inl h
  · rw [if_neg hm] at h
    rcases List.mem_append.mp h with h₃ | h₃
    · exact Or.inl h₃
    · simp only [List.mem_singleton] at h₃; exact Or.inr h₃

theorem mem_accKeys_wsStep {c : PyVal} {route : String} {weight m range : ℚ}
    {acc : Acc} {r : Rec} (h : c ∈ accKeys (wsStep route weight m range acc r)) :
    c ∈ accKeys acc ∨ c = getCid r := by
  by_cases hg : (getCid r).truthy
  · simp only [wsStep, hg, not_true, Bool.not_eq_true] at h
    exact mem_accKeys_updAcc (by simpa using h)
  · simp only [wsStep, hg] at h
    exact Or.inl (by simpa using h)

theorem mem_accKeys_foldl_wsStep {c : PyVal} {route : String}
    {weight m range : ℚ} {rs : List Rec} {acc : Acc}
    (h : c ∈ accKeys (rs.foldl (wsStep route weight m range) acc)) :
    c ∈ accKeys acc ∨ ∃ r ∈ rs, getCid r = c := by
  induction rs generalizing acc with
  | nil => exact Or.inl h
  | cons r rest ih =>
      rcases ih (by simpa using h) with h₃ | h₃
      · rcases mem_accKeys_wsStep h₃ with h₄ | h₄
        · exact Or.inl h₄
        · exact Or.inr ⟨r, List.mem_cons_self r rest, h₄.symm⟩
      · obtain ⟨r₂, hr₂, hc₂⟩ := h₃
        exact Or.inr ⟨r₂, List.mem_cons_of_mem r hr₂, hc₂⟩

theorem mem_accKeys_wsRoute {c : PyVal} {nw : List (String × ℚ)} {acc : Acc}
    {route : String} {rs : List Rec} (h : c ∈ accKeys (wsRoute nw acc route rs)) :
    c ∈ accKeys acc ∨ ∃ r ∈ rs, getCid r = c := by
  unfold wsRoute at h
  split at h
  · exact Or.inl h
  · exact mem_accKeys_foldl_wsStep h

theorem mem_accKeys_wsAcc {c : PyVal} {rb : List (String × List Rec)}
    {w : List (String × ℚ)} (h : c ∈ accKeys (wsAcc rb w)) :
    ∃ p ∈ rb, ∃ r ∈ p.2, getCid r = c := by
  have main : ∀ (rb : List (String × List Rec)) (acc : Acc),
      c ∈ accKeys (rb.foldl (fun acc p => wsRoute (normalizeWeights w) acc p.1 p.2) acc) →
      c ∈ accKeys acc ∨ ∃ p ∈ rb, ∃ r ∈ p.2, getCid r = c := by
    intro rb
    induction rb with
    | nil => intro acc h; exact Or.inl h
    | cons p rest ih =>
        intro acc h
        rcases ih _ (by simpa using h) with h₃ | h₃
        · rcases mem_accKeys_wsRoute h₃ with h₄ | h₄
          · exact Or.inl h₄
          · exact Or.inr ⟨p, List.mem_cons_self p rest, h₄⟩
        · obtain ⟨p₂, hp₂, hr₂⟩ := h₃
          exact Or.inr ⟨p₂, List.mem_cons_of_mem p hp₂, hr₂⟩
  rcases main rb [] h with h₃ | h₃
  · simp [accKeys] at h₃
  · exact h₃

theorem mem_accKeys_rrfFold {c : PyVal} {k : ℕ} {route : String} {rank : ℕ}
    {rs : List Rec} {acc : Acc} (h : c ∈ accKeys (rrfFold k route rank rs acc)) :
    c ∈ accKeys acc ∨ ∃ r ∈ rs, getCid r = c := by
  induction rs generalizing rank acc with
  | nil => exact Or.inl h
  | cons r rest ih =>
      rcases ih (by simpa [rrfFold] using h) with h₃ | h₃
      · by_cases hg : (getCid r).truthy
        · simp only [hg, not_true, Bool.not_eq_true] at h₃
          rcases mem_accKeys_updAcc (by simpa using h₃) with h₄ | h₄
          · exact Or.inl h₄
          · exact Or.inr ⟨r, List.mem_cons_self r rest, h₄.symm⟩
        · simp only [hg] at h₃
          exact Or.inl (by simpa using h₃)
      · obtain ⟨r₂, hr₂, hc₂⟩ := h₃
        exact Or.inr ⟨r₂, List.mem_cons_of_mem r hr₂, hc₂⟩

theorem mem_accKeys_rrfRoute {c : PyVal} {k : ℕ} {acc : Acc} {route : String}
    {rs : List Rec} (h : c ∈ accKeys (rrfRoute k acc route rs)) :
    c ∈ accKeys acc ∨ ∃ r ∈ rs, getCid r = c := by
  unfold rrfRoute at h
  split at h
  · exact Or.inl h
  · rcases mem_accKeys_rrfFold h with h₃ | h₃
    · exact Or.inl h₃
    · obtain ⟨r₂, hr₂, hc₂⟩ := h₃
      exact Or.inr ⟨r₂, (sortScoreDesc_perm getScore rs).mem_iff.mp hr₂, hc₂⟩

theorem mem_accKeys_rrfAcc {c : PyVal} {rb : List (String × List Rec)} {k : ℕ}
    (h : c ∈ accKeys (rrfAcc rb k)) :
    ∃ p ∈ rb, ∃ r ∈ p.2, getCid r = c := by
  have main : ∀ (rb : List (String × List Rec)) (acc : Acc),
      c ∈ accKeys (rb.foldl (fun acc p => rrfRoute k acc p.1 p.2) acc) →
      c ∈ accKeys acc ∨ ∃ p ∈ rb, ∃ r ∈ p.2, getCid r = c := by
    intro rb
    induction rb with
    | nil => intro acc h; exact Or.inl h
    | cons p rest ih =>
        intro acc h
        rcases ih _ (by simpa using h) with h₃ | h₃
        · rcases mem_accKeys_rrfRoute h₃ with h₄ | h₄
          · exact Or.inl h₄
          · exact Or.inr ⟨p, List.mem_cons_self p rest, h₄⟩
        · obtain ⟨p₂, hp₂, hr₂⟩ := h₃
          exact Or.inr ⟨p₂, List.mem_cons_of_mem p hp₂, hr₂⟩
  rcases main rb [] h with h₃ | h₃
  · simp [accKeys] at h₃
  · exact h₃

theorem weightedSum_mem {rb : List (String × List Rec)} {w : List (String × ℚ)}
    {fu : FusedRec} (h : fu ∈ weightedSum rb w) :
    ∃ p ∈ wsAcc rb w, accToFused p = fu := by
  rw [weightedSum_eq] at h
  split at h
  · simp at h
  · exact List.mem_map.mp ((sortScoreDesc_perm FusedRec.score _).mem_iff.mp h)

theorem rrf_mem {rb : List (String × List Rec)} {k : ℕ} {fu : FusedRec}
    (h : fu ∈ rrf rb k) : ∃ p ∈ rrfAcc rb k, accToFused p = fu := by
  rw [rrf_eq] at h
  split at h
  · simp at h
  · exact List.mem_map.mp ((sortScoreDesc_perm FusedRec.score _).mem_iff.mp h)

theorem map_chunkId_accToFused (acc : Acc) :
    (acc.map accToFused).map FusedRec.chunk_id = accKeys acc := by
  rw [List.map_map]
  rfl

theorem foldl_min_le_init (a : ℚ) (l : List ℚ) : l.foldl min a ≤ a := by
  induction l generalizing a with
  | nil => exact le_refl a
  | cons x xs ih => exact le_trans (ih (min a x)) (min_le_left a x)

theorem foldl_min_le_mem {s : ℚ} {l : List ℚ} (h : s ∈ l) (a : ℚ) :
    l.foldl min a ≤ s := by
  induction l generalizing a with
  | nil => simp at h
  | cons x xs ih =>
      rcases List.mem_cons.mp h with rfl | h₂
      · exact le_trans (foldl_min_le_init (min a s) xs) (min_le_right a s)
      · exact ih h₂ (min a x)

theorem listMin_le {s : ℚ} {l : List ℚ} (h : s ∈ l) : listMin l ≤ s := by
  cases l with
  | nil => simp at h
  | cons x xs =>
      show xs.foldl min x ≤ s
      rcases List.mem_cons.mp h with rfl | h₂
      · exact foldl_min_le_init s xs
      · exact foldl_min_le_mem h₂ x

theorem init_le_foldl_max (a : ℚ) (l : List ℚ) : a ≤ l.foldl max a := by
  induction l generalizing a with
  | nil => exact le_refl a
  | cons x xs ih => exact le_trans (le_max_left a x) (ih (max a x))

theorem mem_le_foldl_max {s : ℚ} {l : List ℚ} (h : s ∈ l) (a : ℚ) :
    s ≤ l.foldl max a := by
  induction l generalizing a with
  | nil => simp at h
  | cons x xs ih =>
      rcases List.mem_cons.mp h with rfl | h₂
      · exact le_trans (le_max_right a s) (init_le_foldl_max (max a s) xs)
      · exact ih h₂ (max a x)

theorem le_listMax {s : ℚ} {l : List ℚ} (h : s ∈ l) : s ≤ listMax l := by
  cases l with
  | nil => simp at h
  | cons x xs =>
      show s ≤ xs.foldl max x
      rcases List.mem_cons.mp h with rfl | h₂
      · exact init_le_foldl_max s xs
      · exact mem_le_foldl_max h₂ x

theorem foldl_min_mem (a : ℚ) (l : List ℚ) : l.foldl min a ∈ a :: l := by
  induction l generalizing a with
  | nil => simp
  | cons x xs ih =>
      have h := ih (min a x)
      rcases List.mem_cons.mp h with h₂ | h₂
      · rcases min_choice a x with h₃ | h₃
        · rw [show (x :: xs).foldl min a = xs.foldl min (min a x) from rfl, h₂, h₃]
          simp
        · rw [show (x :: xs).foldl min a = xs.foldl min (min a x) from rfl, h₂, h₃]
          simp
      · rw [show (x :: xs).foldl min a = xs.foldl min (min a x) from rfl]
        exact List.mem_cons_of_mem a (List.mem_cons_of_mem x h₂)

theorem foldl_max_mem (a : ℚ) (l : List ℚ) : l.foldl max a ∈ a :: l := by
  induction l generalizing a with
  | nil => simp
  | cons x xs ih =>
      have h := ih (max a x)
      rcases List.mem_cons.mp h with h₂ | h₂
      · rcases max_choice a x with h₃ | h₃
        · rw [show (x :: xs).foldl max a = xs.foldl max (max a x) from rfl, h₂, h₃]
          simp
        · rw [show (x :: xs).foldl max a = xs.foldl max (max a x) from rfl, h₂, h₃]
          simp
      · rw [show (x :: xs).foldl max a = xs.foldl max (max a x) from rfl]
        exact List.mem_cons_of_mem a (List.mem_cons_of_mem x h₂)

theorem listMin_mem {l : List ℚ} (h : l ≠ []) : listMin l ∈ l := by
  cases l with
  | nil => exact absurd rfl h
  | cons x xs => exact foldl_min_mem x xs

theorem listMax_mem {l : List ℚ} (h : l ≠ []) : listMax l ∈ l := by
  cases l with
  | nil => exact absurd rfl h
  | cons x xs => exact foldl_max_mem x xs

theorem alookup_map_const (w : List (String × ℚ)) (c : ℚ) (route : String) :
    alookup route (w.map (fun p => (p.1, c))) =
      if route ∈ w.map Prod.fst then some c else none := by
  induction w with
  | nil => simp [alookup]
  | cons p rest ih =>
      obtain ⟨k, v⟩ := p
      by_cases hk : k = route
      · subst hk; simp [alookup]
      · have hk₂ : ¬route = k := fun hq => hk hq.symm
        simp only [List.map_cons, alookup, hk, if_false, ih, List.mem_cons, hk₂,
          false_or]

/-! ## Claim theorems -/

/-- C10: in both fusion algorithms, a candidate whose `chunk_id` is missing
or falsy is silently skipped — every fused output record carries a truthy
`chunk_id` (so skipped candidates never appear and contribute nothing), and
each `chunk_id` appears at most once in the output list. -/
theorem fusion_skips_falsy_ids (rb : List (String × List Rec))
    (w : List (String × ℚ)) (k : ℕ) :
    (∀ fu ∈ weightedSum rb w, fu.chunk_id.truthy) ∧
    ((weightedSum rb w).map FusedRec.chunk_id).Nodup ∧
    (∀ fu ∈ rrf rb k, fu.chunk_id.truthy) ∧
    ((rrf rb k).map FusedRec.chunk_id).Nodup := by
  refine ⟨?_, ?_, ?_, ?_⟩
  · intro fu hf
    obtain ⟨p, hp, hpe⟩ := weightedSum_mem hf
    have := (keysOk_wsAcc rb w).2 p.1 (List.mem_map_of_mem Prod.fst hp)
    rw [← hpe]
    exact this
  · rw [weightedSum_eq]
    split
    · simp
    · have hperm :=
        (sortScoreDesc_perm FusedRec.score ((wsAcc rb w).map accToFused)).map
          FusedRec.chunk_id
      rw [map_chunkId_accToFused] at hperm
      exact hperm.nodup_iff.mpr (keysOk_wsAcc rb w).1
  · intro fu hf
    obtain ⟨p, hp, hpe⟩ := rrf_mem hf
    have := (keysOk_rrfAcc rb k).2 p.1 (List.mem_map_of_mem Prod.fst hp)
    rw [← hpe]
    exact this
  · rw [rrf_eq]
    split
    · simp
    · have hperm :=
        (sortScoreDesc_perm FusedRec.score ((rrfAcc rb k).map accToFused)).map
          FusedRec.chunk_id
      rw [map_chunkId_accToFused] at hperm
      exact hperm.nodup_iff.mpr (keysOk_rrfAcc rb k).1

/-- Witness for C10 at a concrete input: the single fused record of a
one-route call has the truthy id `"c"`, and the output ids are distinct. -/
theorem fusion_skips_falsy_ids_witness :
    PyVal.truthy (FusedRec.chunk_id
      ⟨PyVal.str "c", 1, [("a", 1)],
        [("chunk_id", PyVal.str "c"), ("score", PyVal.num 1)]⟩) ∧
    ((weightedSum [("a", [[("chunk_id", PyVal.str "c"), ("score", PyVal.num 1)]])]
        [("a", 1)]).map FusedRec.chunk_id).Nodup := by
  have hcomp : weightedSum
      [("a", [[("chunk_id", PyVal.str "c"), ("score", PyVal.num 1)]])] [("a", 1)]
      = [⟨PyVal.str "c", 1, [("a", 1)],
          [("chunk_id", PyVal.str "c"), ("score", PyVal.num 1)]⟩] := by
    simp +decide [weightedSum, wsAcc, wsRoute, wsStep, normalizeWeights,
      lookupWeight, alookup, getScore, getCid, minMaxNorm, listMin, listMax,
      updAcc, Entry.add, Entry.empty, copyFields, Entry.hasKey, setKey,
      sortScoreDesc, insertScoreDesc, accToFused, PyVal.truthy, min_def, max_def]
  constructor
  · exact (fusion_skips_falsy_ids
      [("a", [[("chunk_id", PyVal.str "c"), ("score", PyVal.num 1)]])]
      [("a", 1)] 60).1 _ (by rw [hcomp]; exact List.mem_singleton.mpr rfl)
  · exact (fusion_skips_falsy_ids
      [("a", [[("chunk_id", PyVal.str "c"), ("score", PyVal.num 1)]])]
      [("a", 1)] 60).2.1

/-- C3: `weighted_sum` min-max normalizes each route's raw scores
independently: with at least two distinct raw scores, every normalized score
lies in `[0, 1]`, the route's top raw score maps to `1.0` and its bottom raw
score to `0.0`; when all raw scores are equal, every normalized score equals
`1.0`. -/
theorem minmax_normalization_bounds (rs : List Rec) (h : rs ≠ []) :
    ((∃ a ∈ rs.map getScore, ∃ b ∈ rs.map getScore, a ≠ b) →
      (∀ x ∈ normalizeRoute rs, 0 ≤ x ∧ x ≤ 1) ∧
      minMaxNorm (listMin (rs.map getScore))
        (listMax (rs.map getScore) - listMin (rs.map getScore))
        (listMax (rs.map getScore)) = 1 ∧
      minMaxNorm (listMin (rs.map getScore))
        (listMax (rs.map getScore) - listMin (rs.map getScore))
        (listMin (rs.map getScore)) = 0) ∧
    ((∀ a ∈ rs.map getScore, ∀ b ∈ rs.map getScore, a = b) →
      ∀ x ∈ normalizeRoute rs, x = 1) := by
  constructor
  · rintro ⟨a, ha, b, hb, hab⟩
    have hrange : 0 < listMax (rs.map getScore) - listMin (rs.map getScore) := by
      by_contra hle
      push_neg at hle
      have h₂ := listMin_le ha
      have h₃ := le_listMax ha
      have h₄ := listMin_le hb
      have h₅ := le_listMax hb
      exact hab (by linarith)
    refine ⟨?_, ?_, ?_⟩
    · intro x hx
      obtain ⟨s, hs, rfl⟩ := List.mem_map.mp hx
      rw [minMaxNorm, if_pos hrange]
      constructor
      · exact div_nonneg (by linarith [listMin_le hs]) hrange.le
      · rw [div_le_one hrange]
        linarith [le_listMax hs]
    · rw [minMaxNorm, if_pos hrange]
      exact div_self (ne_of_gt hrange)
    · rw [minMaxNorm, if_pos hrange]
      simp
  · intro he x hx
    have hne : rs.map getScore ≠ [] := by simpa using h
    have heq : listMin (rs.map getScore) = listMax (rs.map getScore) :=
      he _ (listMin_mem hne) _ (listMax_mem hne)
    have hrange : ¬0 < listMax (rs.map getScore) - listMin (rs.map getScore) := by
      rw [heq]; simp
    obtain ⟨s, hs, rfl⟩ := List.mem_map.mp hx
    rw [minMaxNorm, if_neg hrange]

/-- Witness for C3 at a concrete route with raw scores `3` and `1`: the top
raw score normalizes to `1` and the bottom to `0`. -/
theorem minmax_normalization_bounds_witness :
    (([[("chunk_id", PyVal.str "a"), ("score", PyVal.num 3)],
       [("chunk_id", PyVal.str "b"), ("score", PyVal.num 1)]] : List Rec) ≠ []) ∧
    (∃ a ∈ ([[("chunk_id", PyVal.str "a"), ("score", PyVal.num 3)],
       [("chunk_id", PyVal.str "b"), ("score", PyVal.num 1)]] : List Rec).map getScore,
     ∃ b ∈ ([[("chunk_id", PyVal.str "a"), ("score", PyVal.num 3)],
       [("chunk_id", PyVal.str "b"), ("score", PyVal.num 1)]] : List Rec).map getScore,
       a ≠ b) ∧
    minMaxNorm (listMin (([[("chunk_id", PyVal.str "a"), ("score", PyVal.num 3)],
       [("chunk_id", PyVal.str "b"), ("score", PyVal.num 1)]] : List Rec).map getScore))
      (listMax (([[("chunk_id", PyVal.str "a"), ("score", PyVal.num 3)],
       [("chunk_id", PyVal.str "b"), ("score", PyVal.num 1)]] : List Rec).map getScore)
        - listMin (([[("chunk_id", PyVal.str "a"), ("score", PyVal.num 3)],
       [("chunk_id", PyVal.str "b"), ("score", PyVal.num 1)]] : List Rec).map getScore))
      (listMax (([[("chunk_id", PyVal.str "a"), ("score", PyVal.num 3)],
       [("chunk_id", PyVal.str "b"), ("score", PyVal.num 1)]] : List Rec).map getScore)) = 1 :=
  ⟨by decide, by decide,
    ((minmax_normalization_bounds _ (by decide)).1 (by decide)).2.1⟩

/-- C1 counterexample: a call with one participating route `"a"` and
supplied weights `{}` (summing to 0) fuses to score `0`; equal weights
across the participating routes would give `1`. -/
theorem zero_total_weight_cx :
    (weightedSum [("a", [[("chunk_id", PyVal.str "c"), ("score", PyVal.num 1)]])]
        []).map FusedRec.score = [0] ∧
    (weightedSum [("a", [[("chunk_id", PyVal.str "c"), ("score", PyVal.num 1)]])]
        []).map FusedRec.score ≠ [1] := by
  have heval : (weightedSum
      [("a", [[("chunk_id", PyVal.str "c"), ("score", PyVal.num 1)]])] []).map
        FusedRec.score = [0] := by
    simp +decide [weightedSum, wsAcc, wsRoute, wsStep, normalizeWeights,
      lookupWeight, alookup, getScore, getCid, minMaxNorm, listMin, listMax,
      updAcc, Entry.add, Entry.empty, copyFields, Entry.hasKey, setKey,
      sortScoreDesc, insertScoreDesc, accToFused, PyVal.truthy, min_def, max_def]
  refine ⟨heval, ?_⟩
  rw [heval]
  simp

/-- C1 amended: when the supplied weights sum to 0, `weighted_sum` falls
back to equal weights `1/len(weights)` across exactly the KEYS of the
supplied weights dict — not the participating routes: a participating route
absent from the weights dict gets weight `0`. -/
theorem zero_total_weight_renormalization (w : List (String × ℚ)) (route : String)
    (h : (w.map Prod.snd).sum = 0) :
    lookupWeight (normalizeWeights w) route =
      if route ∈ w.map Prod.fst then 1 / (w.length : ℚ) else 0 := by
  have h₂ : normalizeWeights w = w.map (fun p => (p.1, 1 / (w.length : ℚ))) := by
    rw [show normalizeWeights w
          = if (w.map Prod.snd).sum = 0 then
              w.map (fun p => (p.1, 1 / (w.length : ℚ)))
            else w.map (fun p => (p.1, p.2 / (w.map Prod.snd).sum)) from rfl,
        if_pos h]
  rw [lookupWeight, h₂, alookup_map_const]
  by_cases hm : route ∈ w.map Prod.fst <;> simp [hm]

/-- Witness for C1's amended statement: weights `{a: 2, b: -2}` sum to 0;
the key `"a"` gets weight `1/2` while the absent route `"z"` gets `0`. -/
theorem zero_total_weight_renormalization_witness :
    ((([("a", (2 : ℚ)), ("b", -2)]).map Prod.snd).sum = 0) ∧
    lookupWeight (normalizeWeights [("a", (2 : ℚ)), ("b", -2)]) "a" = 1 / 2 ∧
    lookupWeight (normalizeWeights [("a", (2 : ℚ)), ("b", -2)]) "z" = 0 := by
  have hsum : (([("a", (2 : ℚ)), ("b", -2)]).map Prod.snd).sum = 0 := by
    norm_num
  refine ⟨hsum, ?_, ?_⟩
  · rw [zero_total_weight_renormalization [("a", (2 : ℚ)), ("b", -2)] "a" hsum]
    norm_num
  · rw [zero_total_weight_renormalization [("a", (2 : ℚ)), ("b", -2)] "z" hsum]
    simp

/-- C8: `fuse` with a method string other than `"weighted_sum"` and `"rrf"`
is total (never raises) and falls back to `weighted_sum`, with equal weights
across the routes of `results_by_route` when no weights were supplied
(`None` or the empty, falsy, dict). -/
theorem fuse_unknown_method (rb : List (String × List Rec)) (m : String)
    (h₁ : m ≠ "weighted_sum") (h₂ : m ≠ "rrf") :
    fuse rb m none = weightedSum rb (equalWeights rb) ∧
    fuse rb m (some []) = weightedSum rb (equalWeights rb) ∧
    ∀ w, w ≠ [] → fuse rb m (some w) = weightedSum rb w := by
  refine ⟨?_, ?_, ?_⟩
  · simp [fuse, h₁, h₂]
  · simp [fuse, h₁, h₂]
  · intro w hw
    cases w with
    | nil => exact absurd rfl hw
    | cons p rest => simp [fuse, h₁, h₂]

/-- Witness for C8 at the unknown method `"bogus"` with no weights. -/
theorem fuse_unknown_method_witness :
    ("bogus" ≠ "weighted_sum") ∧ ("bogus" ≠ "rrf") ∧
    fuse ([("a", [[("chunk_id", PyVal.str "c"), ("score", PyVal.num 1)]])] :
        List (String × List Rec)) "bogus" none
      = weightedSum [("a", [[("chunk_id", PyVal.str "c"), ("score", PyVal.num 1)]])]
          (equalWeights [("a", [[("chunk_id", PyVal.str "c"), ("score", PyVal.num 1)]])]) :=
  ⟨by decide, by decide,
    (fuse_unknown_method
      [("a", [[("chunk_id", PyVal.str "c"), ("score", PyVal.num 1)]])] "bogus"
      (by decide) (by decide)).1⟩

/-- C9: if the LLM generate-and-parse chain fails, `rewrite` — for the
`"keywords"` method, the `"llm"` method, and the unknown-method fallback —
returns the original query with the query itself as the sole keyword. -/
theorem rewrite_failure_fallback (q m e : String) :
    rewrite q m (Except.error e) = ⟨PyVal.str q, [PyVal.str q]⟩ := by
  by_cases hm : m = "keywords"
  · simp [rewrite, rewriteKeywords, hm]
  · by_cases hl : m = "llm" <;>
      simp [rewrite, rewriteKeywords, rewriteLlm, hm, hl]

theorem rankOf_eq_none {cid : PyVal} {rs : List Rec}
    (h : ∀ r ∈ rs, getCid r ≠ cid) : rankOf cid rs = none := by
  induction rs with
  | nil => rfl
  | cons r rest ih =>
      simp only [rankOf, if_neg (h r (List.mem_cons_self r rest)),
        ih (fun r₂ h₂ => h r₂ (List.mem_cons_of_mem r h₂))]
      rfl

theorem rrfContrib_falsy {c : PyVal} (hc : ¬c.truthy) (k start : ℕ)
    (rs : List Rec) : rrfContrib k start rs c = 0 := by
  unfold rrfContrib
  cases rankOf c rs <;> simp [hc]

theorem rrfContrib_cons_ne {c : PyVal} {r : Rec} (h : getCid r ≠ c) (k : ℕ)
    (start : ℕ) (rs : List Rec) :
    rrfContrib k start (r :: rs) c = rrfContrib k (start + 1) rs c := by
  unfold rrfContrib
  simp only [rankOf, if_neg h]
  cases hro : rankOf c rs with
  | none => simp
  | some j =>
      simp only [Option.map_some']
      by_cases hc : c.truthy
      · simp only [hc, if_true]
        congr 1
        push_cast
        ring
      · simp [hc]

theorem routeIdsOk_tail {r : Rec} {rest : List Rec}
    (hnd : routeIdsOk (r :: rest)) : routeIdsOk rest := by
  have hsub : List.Sublist ((rest.map getCid).filter PyVal.truthy)
      (((r :: rest).map getCid).filter PyVal.truthy) := by
    simp only [List.map_cons, List.filter_cons]
    split
    · exact List.sublist_cons_self _ _
    · exact List.Sublist.refl _
  exact hsub.nodup hnd

theorem accScore_rrfFold (k : ℕ) (route : String) (start : ℕ) (rs : List Rec)
    (acc : Acc) (c : PyVal) (hnd : routeIdsOk rs) :
    accScore (rrfFold k route start rs acc) c =
      accScore acc c + rrfContrib k start rs c := by
  induction rs generalizing start acc with
  | nil => simp [rrfFold, rrfContrib, rankOf]
  | cons r rest ih =>
      have hndrest : routeIdsOk rest := routeIdsOk_tail hnd
      rw [show rrfFold k route start (r :: rest) acc
            = rrfFold k route (start + 1) rest
                (if ¬ (getCid r).truthy then acc
                 else updAcc (getCid r) route (1 / ((k : ℚ) + start))
                   (1 / ((k : ℚ) + start)) r acc) from rfl]
      by_cases hcr : getCid r = c
      · by_cases ht : c.truthy
        · rw [if_neg (by simp [hcr, ht])]
          rw [ih _ _ hndrest]
          have hnone : rankOf c rest = none := by
            apply rankOf_eq_none
            intro r₂ h₂ hcid
            have hmem : c ∈ (rest.map getCid).filter PyVal.truthy :=
              List.mem_filter.mpr ⟨List.mem_map.mpr ⟨r₂, h₂, hcid⟩, ht⟩
            have hcons : ((r :: rest).map getCid).filter PyVal.truthy
                = c :: (rest.map getCid).filter PyVal.truthy := by
              simp [List.filter_cons, hcr, ht]
            have hnd₂ : (((r :: rest).map getCid).filter PyVal.truthy).Nodup := hnd
            rw [hcons] at hnd₂
            exact (List.nodup_cons.mp hnd₂).1 hmem
          have hcontrib₂ : rrfContrib k (start + 1) rest c = 0 := by
            unfold rrfContrib
            rw [hnone]
          have hcontrib₁ : rrfContrib k start (r :: rest) c
              = 1 / ((k : ℚ) + start) := by
            unfold rrfContrib
            simp only [rankOf, if_pos hcr, ht, if_true]
            congr 1
            push_cast
            ring
          rw [hcontrib₁, hcontrib₂, accScore_updAcc, if_pos hcr.symm]
          ring
        · rw [if_pos (by simp [hcr, ht])]
          rw [ih _ _ hndrest, rrfContrib_falsy ht, rrfContrib_falsy ht]
      · have hstep : accScore (if ¬ (getCid r).truthy then acc
            else updAcc (getCid r) route (1 / ((k : ℚ) + start))
              (1 / ((k : ℚ) + start)) r acc) c = accScore acc c := by
          split
          · rfl
          · rw [accScore_updAcc, if_neg (fun hq => hcr hq.symm)]
            ring
        rw [ih _ _ hndrest, hstep, rrfContrib_cons_ne hcr]

theorem routeIdsOk_sort {rs : List Rec} (hnd : routeIdsOk rs) :
    routeIdsOk (sortScoreDesc getScore rs) := by
  unfold routeIdsOk at *
  exact (((sortScoreDesc_perm getScore rs).map getCid).filter
    PyVal.truthy).nodup_iff.mpr hnd

theorem accScore_rrfRoute (k : ℕ) (acc : Acc) (route : String) (rs : List Rec)
    (c : PyVal) (hnd : routeIdsOk rs) :
    accScore (rrfRoute k acc route rs) c =
      accScore acc c + rrfRouteContrib k c (route, rs) := by
  unfold rrfRoute
  split
  · next hemp =>
      have hrs : rs = [] := by
        cases rs with
        | nil => rfl
        | cons a l => simp [List.isEmpty] at hemp
      subst hrs
      simp [rrfRouteContrib, sortScoreDesc, rankOf]
  · rw [accScore_rrfFold k route 1 _ acc c (routeIdsOk_sort hnd)]
    congr 1
    unfold rrfContrib rrfRouteContrib
    cases rankOf c (sortScoreDesc getScore rs) with
    | none => rfl
    | some j =>
        by_cases ht : c.truthy
        · simp only [ht, if_true]
          congr 1
          push_cast
          ring
        · simp [ht]

theorem accScore_rrfAcc (rb : List (String × List Rec)) (k : ℕ) (c : PyVal)
    (hnd : ∀ p ∈ rb, routeIdsOk p.2) :
    accScore (rrfAcc rb k) c = (rb.map (rrfRouteContrib k c)).sum := by
  have main : ∀ (rb : List (String × List Rec)) (acc : Acc),
      (∀ p ∈ rb, routeIdsOk p.2) →
      accScore (rb.foldl (fun acc p => rrfRoute k acc p.1 p.2) acc) c
        = accScore acc c + (rb.map (rrfRouteContrib k c)).sum := by
    intro rb
    induction rb with
    | nil => intro acc h; simp
    | cons p rest ih =>
        intro acc h
        rw [List.foldl_cons, ih _ (fun q hq => h q (List.mem_cons_of_mem p hq)),
            accScore_rrfRoute k acc p.1 p.2 c (h p (List.mem_cons_self p rest))]
        simp only [List.map_cons, List.sum_cons]
        ring
  have h₂ := main rb [] hnd
  rw [rrfAcc] at *
  simpa [accScore, alookup] using h₂

theorem sum_rrfRouteContrib_eq_spec {c : PyVal} (ht : c.truthy)
    (rb : List (String × List Rec)) (k : ℕ) :
    (rb.map (rrfRouteContrib k c)).sum = rrfSpecScore rb k c := by
  unfold rrfSpecScore
  have hfun : rrfRouteContrib k c = fun p : String × List Rec =>
      match rankOf c (sortScoreDesc getScore p.2) with
      | some rank => 1 / ((k : ℚ) + rank)
      | none => 0 := by
    funext p
    unfold rrfRouteContrib
    cases rankOf c (sortScoreDesc getScore p.2) <;> simp [ht]
  rw [hfun]

/-- C4: `rrf` assigns every candidate, keyed by `chunk_id`, the score equal
to the sum over all routes that returned it of `1/(k + rank)`, with `rank`
the 1-based position in the route's list sorted by raw score descending; `k`
is caller-overridable and `fuse` invokes `rrf` with the default `k = 60`.
The hypothesis is the data-model invariant that a route never returns
duplicate ids. -/
theorem rrf_score_formula (rb : List (String × List Rec)) (k : ℕ)
    (hnd : ∀ p ∈ rb, routeIdsOk p.2) :
    (∀ w, fuse rb "rrf" w = rrf rb 60) ∧
    ∀ fu ∈ rrf rb k, fu.score = rrfSpecScore rb k fu.chunk_id := by
  constructor
  · intro w
    simp [fuse]
  · intro fu hf
    obtain ⟨⟨c, e⟩, hp, hpe⟩ := rrf_mem hf
    obtain ⟨hnodup, htruthy⟩ := keysOk_rrfAcc rb k
    have hlook : alookup c (rrfAcc rb k) = some e :=
      alookup_of_mem_nodup hp hnodup
    have hscore : accScore (rrfAcc rb k) c = e.final_score := by
      rw [accScore, hlook]
      rfl
    have ht : c.truthy :=
      htruthy c (List.mem_map_of_mem Prod.fst hp)
    rw [← hpe]
    show e.final_score = rrfSpecScore rb k c
    rw [← hscore, accScore_rrfAcc rb k c hnd, sum_rrfRouteContrib_eq_spec ht]

/-- Witness for C4 at the spec's example: routes A ranking `x1` before `x2`
and B ranking `x2` before `x1` with `k = 60` give both candidates the score
`1/61 + 1/62`. -/
theorem rrf_score_formula_witness :
    (∀ p ∈ ([("A", [[("chunk_id", PyVal.str "x1"), ("score", PyVal.num 2)],
                    [("chunk_id", PyVal.str "x2"), ("score", PyVal.num 1)]]),
             ("B", [[("chunk_id", PyVal.str "x2"), ("score", PyVal.num 2)],
                    [("chunk_id", PyVal.str "x1"), ("score", PyVal.num 1)]])] :
        List (String × List Rec)), routeIdsOk p.2) ∧
    (∀ fu ∈ rrf [("A", [[("chunk_id", PyVal.str "x1"), ("score", PyVal.num 2)],
                    [("chunk_id", PyVal.str "x2"), ("score", PyVal.num 1)]]),
             ("B", [[("chunk_id", PyVal.str "x2"), ("score", PyVal.num 2)],
                    [("chunk_id", PyVal.str "x1"), ("score", PyVal.num 1)]])] 60,
      fu.score = rrfSpecScore
        [("A", [[("chunk_id", PyVal.str "x1"), ("score", PyVal.num 2)],
                    [("chunk_id", PyVal.str "x2"), ("score", PyVal.num 1)]]),
         ("B", [[("chunk_id", PyVal.str "x2"), ("score", PyVal.num 2)],
                    [("chunk_id", PyVal.str "x1"), ("score", PyVal.num 1)]])] 60
        fu.chunk_id) ∧
    (rrf [("A", [[("chunk_id", PyVal.str "x1"), ("score", PyVal.num 2)],
                    [("chunk_id", PyVal.str "x2"), ("score", PyVal.num 1)]]),
             ("B", [[("chunk_id", PyVal.str "x2"), ("score", PyVal.num 2)],
                    [("chunk_id", PyVal.str "x1"), ("score", PyVal.num 1)]])] 60).map
        FusedRec.score = [1/61 + 1/62, 1/61 + 1/62] := by
  refine ⟨by decide, (rrf_score_formula _ 60 (by decide)).2, ?_⟩
  simp +decide [rrf, rrfAcc, rrfRoute, rrfFold, alookup, getScore, getCid, updAcc,
    Entry.add, Entry.empty, copyFields, Entry.hasKey, setKey, sortScoreDesc,
    insertScoreDesc, accToFused, PyVal.truthy, min_def, max_def]
  norm_num

theorem accFieldVal_wsStep_some {cid : PyVal} {f : String} {v : PyVal}
    {route : String} {weight m range : ℚ} {acc : Acc} {r : Rec}
    (h : accFieldVal acc cid f = some v) :
    accFieldVal (wsStep route weight m range acc r) cid f = some v := by
  by_cases hg : (getCid r).truthy
  · have hstep : wsStep route weight m range acc r
        = updAcc (getCid r) route (minMaxNorm m range (getScore r))
            (minMaxNorm m range (getScore r) * weight) r acc := by
      simp [wsStep, hg]
    rw [hstep]
    by_cases hc : getCid r = cid
    · rw [hc]
      exact accFieldVal_updAcc_some _ _ _ _ _ _ _ _ h
    · rw [accFieldVal_updAcc_ne _ _ _ _ _ _ _ _ (fun hq => hc hq.symm)]
      exact h
  · simpa [wsStep, hg] using h

theorem accFieldVal_foldl_wsStep_some {cid : PyVal} {f : String} {v : PyVal}
    {route : String} {weight m range : ℚ} {rs : List Rec} {acc : Acc}
    (h : accFieldVal acc cid f = some v) :
    accFieldVal (rs.foldl (wsStep route weight m range) acc) cid f = some v := by
  induction rs generalizing acc with
  | nil => exact h
  | cons r rest ih => exact ih (accFieldVal_wsStep_some h)

theorem accFieldVal_wsRoute_some {cid : PyVal} {f : String} {v : PyVal}
    {nw : List (String × ℚ)} {acc : Acc} {route : String} {rs : List Rec}
    (h : accFieldVal acc cid f = some v) :
    accFieldVal (wsRoute nw acc route rs) cid f = some v := by
  unfold wsRoute
  split
  · exact h
  · exact accFieldVal_foldl_wsStep_some h

theorem accFieldVal_wsRoutes_some {cid : PyVal} {f : String} {v : PyVal}
    {nw : List (String × ℚ)} (rb : List (String × List Rec)) (acc : Acc)
    (h : accFieldVal acc cid f = some v) :
    accFieldVal (rb.foldl (fun acc p => wsRoute nw acc p.1 p.2) acc) cid f
      = some v := by
  induction rb generalizing acc with
  | nil => exact h
  | cons p rest ih => exact ih _ (accFieldVal_wsRoute_some h)

theorem accFieldVal_rrfFold_some {cid : PyVal} {f : String} {v : PyVal}
    {k : ℕ} {route : String} {rank : ℕ} {rs : List Rec} {acc : Acc}
    (h : accFieldVal acc cid f = some v) :
    accFieldVal (rrfFold k route rank rs acc) cid f = some v := by
  induction rs generalizing rank acc with
  | nil => exact h
  | cons r rest ih =>
      rw [show rrfFold k route rank (r :: rest) acc
            = rrfFold k route (rank + 1) rest
                (if ¬ (getCid r).truthy then acc
                 else updAcc (getCid r) route (1 / ((k : ℚ) + rank))
                   (1 / ((k : ℚ) + rank)) r acc) from rfl]
      apply ih
      split
      · exact h
      · by_cases hc : getCid r = cid
        · rw [hc]
          exact accFieldVal_updAcc_some _ _ _ _ _ _ _ _ h
        · rw [accFieldVal_updAcc_ne _ _ _ _ _ _ _ _ (fun hq => hc hq.symm)]
          exact h

theorem accFieldVal_rrfRoute_some {cid : PyVal} {f : String} {v : PyVal}
    {k : ℕ} {acc : Acc} {route : String} {rs : List Rec}
    (h : accFieldVal acc cid f = some v) :
    accFieldVal (rrfRoute k acc route rs) cid f = some v := by
  unfold rrfRoute
  split
  · exact h
  · exact accFieldVal_rrfFold_some h

theorem accFieldVal_rrfRoutes_some {cid : PyVal} {f : String} {v : PyVal}
    {k : ℕ} (rb : List (String × List Rec)) (acc : Acc)
    (h : accFieldVal acc cid f = some v) :
    accFieldVal (rb.foldl (fun acc p => rrfRoute k acc p.1 p.2) acc) cid f
      = some v := by
  induction rb generalizing acc with
  | nil => exact h
  | cons p rest ih => exact ih _ (accFieldVal_rrfRoute_some h)

theorem findRec_eq_none {cid : PyVal} {rs : List Rec}
    (h : findRec cid rs = none) : ∀ r ∈ rs, getCid r ≠ cid := by
  induction rs with
  | nil => intro r hr; simp at hr
  | cons r₁ rest ih =>
      intro r hr
      by_cases hc : getCid r₁ = cid
      · simp [findRec, hc] at h
      · rcases List.mem_cons.mp hr with rfl | hr₂
        · exact hc
        · exact ih (by simpa [findRec, hc] using h) r hr₂

theorem not_mem_accKeys_wsRoute {cid : PyVal} {nw : List (String × ℚ)}
    {acc : Acc} {route : String} {rs : List Rec}
    (hkeys : cid ∉ accKeys acc) (hno : ∀ r ∈ rs, getCid r ≠ cid) :
    cid ∉ accKeys (wsRoute nw acc route rs) := by
  intro hmem
  rcases mem_accKeys_wsRoute hmem with h₃ | h₃
  · exact hkeys h₃
  · obtain ⟨r, hr, hc⟩ := h₃
    exact hno r hr hc

theorem not_mem_accKeys_rrfRoute {cid : PyVal} {k : ℕ} {acc : Acc}
    {route : String} {rs : List Rec}
    (hkeys : cid ∉ accKeys acc) (hno : ∀ r ∈ rs, getCid r ≠ cid) :
    cid ∉ accKeys (rrfRoute k acc route rs) := by
  intro hmem
  rcases mem_accKeys_rrfRoute hmem with h₃ | h₃
  · exact hkeys h₃
  · obtain ⟨r, hr, hc⟩ := h₃
    exact hno r hr hc

theorem accFieldVal_foldl_wsStep_establish {cid : PyVal} {f : String}
    {v : PyVal} {r : Rec} (route : String) (weight m range : ℚ)
    (rs : List Rec) (acc : Acc) (ht : cid.truthy) (hv : alookup f r = some v)
    (hf₃ : f ≠ "route_scores") (hf₄ : f ≠ "final_score")
    (hkeys : cid ∉ accKeys acc) (hfind : findRec cid rs = some r) :
    accFieldVal (rs.foldl (wsStep route weight m range) acc) cid f = some v := by
  induction rs generalizing acc hkeys with
  | nil => simp [findRec] at hfind
  | cons r₁ rest ih =>
      by_cases hc : getCid r₁ = cid
      · have hr : r₁ = r := by
          simpa [findRec, hc] using hfind
        have hg : (getCid r₁).truthy := by rw [hc]; exact ht
        rw [List.foldl_cons]
        have hstep : wsStep route weight m range acc r₁
            = updAcc cid route (minMaxNorm m range (getScore r₁))
                (minMaxNorm m range (getScore r₁) * weight) r₁ acc := by
          simp [wsStep, hg, hc, ht]
        rw [hstep]
        apply accFieldVal_foldl_wsStep_some
        rw [accFieldVal_updAcc_new _ _ _ _ _ _ _ hkeys hf₃ hf₄, hr]
        exact hv
      · rw [List.foldl_cons]
        apply ih
        · intro hmem
          rcases mem_accKeys_wsStep hmem with h₃ | h₃
          · exact hkeys h₃
          · exact hc h₃.symm
        · simpa [findRec, hc] using hfind

theorem accFieldVal_wsAcc {cid : PyVal} {f : String} {v : PyVal} {r : Rec}
    (rb : List (String × List Rec)) (w : List (String × ℚ)) (ht : cid.truthy)
    (hv : alookup f r = some v) (hf₃ : f ≠ "route_scores")
    (hf₄ : f ≠ "final_score") (hr : firstRecordFor cid rb = some r) :
    accFieldVal (wsAcc rb w) cid f = some v := by
  have main : ∀ (rb : List (String × List Rec)) (acc : Acc),
      cid ∉ accKeys acc → firstRecordFor cid rb = some r →
      accFieldVal (rb.foldl (fun acc p => wsRoute (normalizeWeights w) acc p.1 p.2)
        acc) cid f = some v := by
    intro rb
    induction rb with
    | nil => intro acc hkeys hfr; simp [firstRecordFor] at hfr
    | cons p rest ih =>
        intro acc hkeys hfr
        obtain ⟨route, rs⟩ := p
        rw [List.foldl_cons]
        cases hfind : findRec cid rs with
        | some r₀ =>
            have hr₀ : r₀ = r := by
              have := hfr
              simp only [firstRecordFor, hfind] at this
              exact Option.some.inj this
            subst hr₀
            apply accFieldVal_wsRoutes_some
            unfold wsRoute
            split
            · next hemp =>
                have : rs = [] := by
                  cases rs with
                  | nil => rfl
                  | cons a l => simp [List.isEmpty] at hemp
                subst this
                simp [findRec] at hfind
            · exact accFieldVal_foldl_wsStep_establish _ _ _ _ _ _ ht hv hf₃ hf₄
                hkeys hfind
        | none =>
            apply ih
            · exact not_mem_accKeys_wsRoute hkeys (findRec_eq_none hfind)
            · simpa [firstRecordFor, hfind] using hfr
  exact main rb [] (by simp [accKeys]) hr

theorem findRec_eq_filter_head (cid : PyVal) (rs : List Rec) :
    findRec cid rs = (rs.filter (fun r => decide (getCid r = cid))).head? := by
  induction rs with
  | nil => rfl
  | cons r rest ih =>
      by_cases hc : getCid r = cid
      · simp [findRec, List.filter_cons, hc]
      · simp [findRec, List.filter_cons, hc, ih]

theorem filter_cid_length_le_one {cid : PyVal} {rs : List Rec}
    (hnd : routeIdsOk rs) (ht : cid.truthy) :
    (rs.filter (fun r => decide (getCid r = cid))).length ≤ 1 := by
  induction rs with
  | nil => simp
  | cons r rest ih =>
      by_cases hc : getCid r = cid
      · have hnone : rest.filter (fun r => decide (getCid r = cid)) = [] := by
          rw [List.filter_eq_nil_iff]
          intro r₂ h₂
          simp only [decide_eq_true_eq]
          intro hcid
          have hmem : cid ∈ (rest.map getCid).filter PyVal.truthy :=
            List.mem_filter.mpr ⟨List.mem_map.mpr ⟨r₂, h₂, hcid⟩, ht⟩
          have hcons : ((r :: rest).map getCid).filter PyVal.truthy
              = cid :: (rest.map getCid).filter PyVal.truthy := by
            simp [List.filter_cons, hc, ht]
          have hnd₂ : (((r :: rest).map getCid).filter PyVal.truthy).Nodup := hnd
          rw [hcons] at hnd₂
          exact (List.nodup_cons.mp hnd₂).1 hmem
        simp [List.filter_cons, hc, hnone]
      · have := ih (routeIdsOk_tail hnd)
        simpa [List.filter_cons, hc] using this

theorem perm_eq_of_length_le_one {α : Type} {l₁ l₂ : List α}
    (h : List.Perm l₁ l₂) (hl : l₂.length ≤ 1) : l₁ = l₂ := by
  cases l₂ with
  | nil => exact h.eq_nil
  | cons a t =>
      cases t with
      | nil => exact List.perm_singleton.mp h
      | cons b t₂ => simp at hl

theorem findRec_sort_eq {cid : PyVal} {rs : List Rec} (hnd : routeIdsOk rs)
    (ht : cid.truthy) :
    findRec cid (sortScoreDesc getScore rs) = findRec cid rs := by
  rw [findRec_eq_filter_head, findRec_eq_filter_head]
  have hperm := (sortScoreDesc_perm getScore rs).filter
    (fun r => decide (getCid r = cid))
  rw [perm_eq_of_length_le_one hperm (filter_cid_length_le_one hnd ht)]

theorem accFieldVal_rrfFold_establish {cid : PyVal} {f : String} {v : PyVal}
    {r : Rec} (k : ℕ) (route : String) (rank : ℕ) (rs : List Rec) (acc : Acc)
    (ht : cid.truthy) (hv : alookup f r = some v) (hf₃ : f ≠ "route_scores")
    (hf₄ : f ≠ "final_score") (hkeys : cid ∉ accKeys acc)
    (hfind : findRec cid rs = some r) :
    accFieldVal (rrfFold k route rank rs acc) cid f = some v := by
  induction rs generalizing rank acc hkeys with
  | nil => simp [findRec] at hfind
  | cons r₁ rest ih =>
      rw [show rrfFold k route rank (r₁ :: rest) acc
            = rrfFold k route (rank + 1) rest
                (if ¬ (getCid r₁).truthy then acc
                 else updAcc (getCid r₁) route (1 / ((k : ℚ) + rank))
                   (1 / ((k : ℚ) + rank)) r₁ acc) from rfl]
      by_cases hc : getCid r₁ = cid
      · have hr : r₁ = r := by
          simpa [findRec, hc] using hfind
        have hg : (getCid r₁).truthy := by rw [hc]; exact ht
        rw [if_neg (by simp [hg])]
        apply accFieldVal_rrfFold_some
        rw [hc]
        rw [accFieldVal_updAcc_new _ _ _ _ _ _ _ hkeys hf₃ hf₄, hr]
        exact hv
      · apply ih
        · intro hmem
          have hmem₂ : cid ∈ accKeys (if ¬ (getCid r₁).truthy then acc
              else updAcc (getCid r₁) route (1 / ((k : ℚ) + rank))
                (1 / ((k : ℚ) + rank)) r₁ acc) := hmem
          split at hmem₂
          · exact hkeys hmem₂
          · rcases mem_accKeys_updAcc hmem₂ with h₃ | h₃
            · exact hkeys h₃
            · exact hc h₃.symm
        · simpa [findRec, hc] using hfind

theorem accFieldVal_rrfAcc {cid : PyVal} {f : String} {v : PyVal} {r : Rec}
    (rb : List (String × List Rec)) (k : ℕ) (ht : cid.truthy)
    (hv : alookup f r = some v) (hf₃ : f ≠ "route_scores")
    (hf₄ : f ≠ "final_score") (hnd : ∀ p ∈ rb, routeIdsOk p.2)
    (hr : firstRecordFor cid rb = some r) :
    accFieldVal (rrfAcc rb k) cid f = some v := by
  have main : ∀ (rb : List (String × List Rec)) (acc : Acc),
      (∀ p ∈ rb, routeIdsOk p.2) → cid ∉ accKeys acc →
      firstRecordFor cid rb = some r →
      accFieldVal (rb.foldl (fun acc p => rrfRoute k acc p.1 p.2) acc) cid f
        = some v := by
    intro rb
    induction rb with
    | nil => intro acc hnd₂ hkeys hfr; simp [firstRecordFor] at hfr
    | cons p rest ih =>
        intro acc hnd₂ hkeys hfr
        obtain ⟨route, rs⟩ := p
        rw [List.foldl_cons]
        cases hfind : findRec cid rs with
        | some r₀ =>
            have hr₀ : r₀ = r := by
              have := hfr
              simp only [firstRecordFor, hfind] at this
              exact Option.some.inj this
            subst hr₀
            apply accFieldVal_rrfRoutes_some
            unfold rrfRoute
            split
            · next hemp =>
                have : rs = [] := by
                  cases rs with
                  | nil => rfl
                  | cons a l => simp [List.isEmpty] at hemp
                subst this
                simp [findRec] at hfind
            · have hsort : findRec cid (sortScoreDesc getScore rs) = some r₀ := by
                rw [findRec_sort_eq
                  (hnd₂ (route, rs) (List.mem_cons_self _ _)) ht]
                exact hfind
              exact accFieldVal_rrfFold_establish _ _ _ _ _ ht hv hf₃ hf₄
                hkeys hsort
        | none =>
            apply ih
            · exact fun q hq => hnd₂ q (List.mem_cons_of_mem _ hq)
            · exact not_mem_accKeys_rrfRoute hkeys (findRec_eq_none hfind)
            · simpa [firstRecordFor, hfind] using hfr
  exact main rb [] hnd (by simp [accKeys]) hr

/-- C6: in both fusion algorithms, for every field outside the score-related
keys (e.g. `content`, `keywords`, `metadata` fields, `doc_id`), when two or
more routes return the same `chunk_id` the fused record takes the field's
value from the record of the first route, in the fixed iteration order over
`results_by_route`, that reported the id (provided that record defines the
field); later routes reporting the same id never overwrite it.  The
hypothesis is the data-model invariant that ids are unique within one
route. -/
theorem payload_first_route_wins (rb : List (String × List Rec))
    (w : List (String × ℚ)) (k : ℕ) (cid : PyVal) (f : String) (v : PyVal)
    (r : Rec) (hf₁ : f ≠ "score") (hf₂ : f ≠ "chunk_id")
    (hf₃ : f ≠ "route_scores") (hf₄ : f ≠ "final_score")
    (hnd : ∀ p ∈ rb, routeIdsOk p.2)
    (hr : firstRecordFor cid rb = some r) (hv : alookup f r = some v) :
    (∀ fu ∈ weightedSum rb w, fu.chunk_id = cid → fu.get f = some v) ∧
    (∀ fu ∈ rrf rb k, fu.chunk_id = cid → fu.get f = some v) := by
  constructor
  · intro fu hf hcid
    obtain ⟨⟨c, e⟩, hp, hpe⟩ := weightedSum_mem hf
    have hc : c = cid := by rw [← hcid, ← hpe]; rfl
    subst hc
    have ht : c.truthy :=
      (keysOk_wsAcc rb w).2 c (List.mem_map_of_mem Prod.fst hp)
    have hlook : alookup c (wsAcc rb w) = some e :=
      alookup_of_mem_nodup hp (keysOk_wsAcc rb w).1
    have hfv : accFieldVal (wsAcc rb w) c f = some v :=
      accFieldVal_wsAcc rb w ht hv hf₃ hf₄ hr
    unfold accFieldVal at hfv
    rw [hlook] at hfv
    rw [← hpe]
    show FusedRec.get (accToFused (c, e)) f = some v
    rw [FusedRec.get, if_neg hf₁, if_neg hf₂]
    exact hfv
  · intro fu hf hcid
    obtain ⟨⟨c, e⟩, hp, hpe⟩ := rrf_mem hf
    have hc : c = cid := by rw [← hcid, ← hpe]; rfl
    subst hc
    have ht : c.truthy :=
      (keysOk_rrfAcc rb k).2 c (List.mem_map_of_mem Prod.fst hp)
    have hlook : alookup c (rrfAcc rb k) = some e :=
      alookup_of_mem_nodup hp (keysOk_rrfAcc rb k).1
    have hfv : accFieldVal (rrfAcc rb k) c f = some v :=
      accFieldVal_rrfAcc rb k ht hv hf₃ hf₄ hnd hr
    unfold accFieldVal at hfv
    rw [hlook] at hfv
    rw [← hpe]
    show FusedRec.get (accToFused (c, e)) f = some v
    rw [FusedRec.get, if_neg hf₁, if_neg hf₂]
    exact hfv

/-- Witness for C6: routes A and B both return `chunk_id` "x" with
different `content` values; the fused record's content is route A's
`"fromA"`, not route B's. -/
theorem payload_first_route_wins_witness :
    (firstRecordFor (PyVal.str "x")
      [("A", [[("chunk_id", PyVal.str "x"), ("score", PyVal.num 1),
               ("content", PyVal.str "fromA")]]),
       ("B", [[("chunk_id", PyVal.str "x"), ("score", PyVal.num 3),
               ("content", PyVal.str "fromB")]])]
      = some [("chunk_id", PyVal.str "x"), ("score", PyVal.num 1),
              ("content", PyVal.str "fromA")]) ∧
    FusedRec.get
      ⟨PyVal.str "x", 1, [("A", 1), ("B", 1)],
        [("chunk_id", PyVal.str "x"), ("score", PyVal.num 1),
         ("content", PyVal.str "fromA")]⟩ "content"
      = some (PyVal.str "fromA") := by
  have hcomp : weightedSum
      [("A", [[("chunk_id", PyVal.str "x"), ("score", PyVal.num 1),
               ("content", PyVal.str "fromA")]]),
       ("B", [[("chunk_id", PyVal.str "x"), ("score", PyVal.num 3),
               ("content", PyVal.str "fromB")]])] [("A", 1), ("B", 1)]
      = [⟨PyVal.str "x", 1, [("A", 1), ("B", 1)],
          [("chunk_id", PyVal.str "x"), ("score", PyVal.num 1),
           ("content", PyVal.str "fromA")]⟩] := by
    simp +decide [weightedSum, wsAcc, wsRoute, wsStep, normalizeWeights,
      lookupWeight, alookup, getScore, getCid, minMaxNorm, listMin, listMax,
      updAcc, Entry.add, Entry.empty, copyFields, Entry.hasKey, setKey,
      sortScoreDesc, insertScoreDesc, accToFused, PyVal.truthy, min_def, max_def]
    norm_num
  refine ⟨by decide, ?_⟩
  exact (payload_first_route_wins
    [("A", [[("chunk_id", PyVal.str "x"), ("score", PyVal.num 1),
             ("content", PyVal.str "fromA")]]),
     ("B", [[("chunk_id", PyVal.str "x"), ("score", PyVal.num 3),
             ("content", PyVal.str "fromB")]])]
    [("A", 1), ("B", 1)] 60 (PyVal.str "x") "content" (PyVal.str "fromA")
    [("chunk_id", PyVal.str "x"), ("score", PyVal.num 1),
     ("content", PyVal.str "fromA")]
    (by decide) (by decide) (by decide) (by decide) (by decide) (by decide)
    (by decide)).1 _ (by rw [hcomp]; exact List.mem_singleton.mpr rfl) rfl

/-- C7: for every retrieval request with `top_k = N`, the response contains
at most `N` results, and those results are exactly the `N`-prefix of the
full fused-and-sorted, formatted pipeline output — a plain prefix take, with
no re-ranking after truncation. -/
theorem retrieve_topk_truncation (req : Request) (be : Backends) :
    (retrieve req be).results.length ≤ req.top_k ∧
    (retrieve req be).results = (pipelineResults req be).take req.top_k := by
  have hres : (retrieve req be).results
      = (pipelineResults req be).take req.top_k := by
    unfold retrieve pipelineResults
    by_cases h : 1 < (buildTasks req be).length
    · simp only [if_pos h, List.map_take]
    · simp only [if_neg h]
      cases hb : buildTasks req be with
      | nil => simp
      | cons p rest =>
          cases rest with
          | nil =>
              obtain ⟨n, rs⟩ := p
              simp [List.map_take]
          | cons q t =>
              exfalso
              apply h
              rw [hb]
              simp only [List.length_cons]
              omega
  refine ⟨?_, hres⟩
  rw [hres]
  exact List.length_take_le _ _

/-- C2 amended: `retrieve` dispatches on the number of routes PRESENT in
`results_by_route`, which — because the search helpers catch every backend
exception and return empty lists — equals the number of enabled routes,
regardless of result emptiness: with both routes enabled the fusion ranker
is called with the configured method/weights even if one or both result
lists are empty; with exactly one enabled route its list is used directly;
with no enabled route the response's result list is empty. -/
theorem retrieve_fusion_dispatch (req : Request) (be : Backends) :
    (req.routes.es_text = true → req.routes.vector.enabled = true →
      (retrieve req be).results =
        ((fuse (buildTasks req be) req.fusion.method
          (some req.fusion.weights)).take req.top_k).map formatFused) ∧
    (req.routes.es_text = true → req.routes.vector.enabled = false →
      (retrieve req be).results
        = ((searchEsText be).take req.top_k).map formatRaw) ∧
    (req.routes.es_text = false → req.routes.vector.enabled = true →
      (retrieve req be).results
        = ((searchVector be req.routes.vector.backend).take req.top_k).map
            formatRaw) ∧
    (req.routes.es_text = false → req.routes.vector.enabled = false →
      (retrieve req be).results = []) := by
  refine ⟨?_, ?_, ?_, ?_⟩ <;> intro h₁ h₂ <;>
    simp [retrieve, buildTasks, h₁, h₂]

/-- Witness for C2's amended statement: with only the ES route enabled, the
response is that route's results, truncated and formatted, used directly. -/
theorem retrieve_fusion_dispatch_witness :
    ((⟨"q", 20, ⟨true, ⟨false, "milvus"⟩⟩, ⟨false, "keywords"⟩,
        ⟨"weighted_sum", []⟩⟩ : Request).routes.es_text = true) ∧
    ((⟨"q", 20, ⟨true, ⟨false, "milvus"⟩⟩, ⟨false, "keywords"⟩,
        ⟨"weighted_sum", []⟩⟩ : Request).routes.vector.enabled = false) ∧
    (retrieve
        ⟨"q", 20, ⟨true, ⟨false, "milvus"⟩⟩, ⟨false, "keywords"⟩,
         ⟨"weighted_sum", []⟩⟩
        ⟨.ok [[("chunk_id", PyVal.str "c"), ("score", PyVal.num 5)]],
         .ok [], .ok [], .ok [], .error "e"⟩).results
      = ((searchEsText
          ⟨.ok [[("chunk_id", PyVal.str "c"), ("score", PyVal.num 5)]],
           .ok [], .ok [], .ok [], .error "e"⟩).take 20).map formatRaw :=
  ⟨rfl, rfl,
    (retrieve_fusion_dispatch
      ⟨"q", 20, ⟨true, ⟨false, "milvus"⟩⟩, ⟨false, "keywords"⟩,
       ⟨"weighted_sum", []⟩⟩
      ⟨.ok [[("chunk_id", PyVal.str "c"), ("score", PyVal.num 5)]],
       .ok [], .ok [], .ok [], .error "e"⟩).2.1 rfl rfl⟩

/-- C2 counterexample: both routes enabled, ES returns an empty list and the
Milvus route one candidate with raw score 5 — exactly one route returned
non-empty results, yet `retrieve` still calls the fusion ranker (two routes
are present) and, with the default empty fusion weights, responds with score
0 instead of using the single non-empty route's results (score 5)
directly. -/
theorem retrieve_empty_route_counts_cx :
    (retrieve
        ⟨"q", 20, ⟨true, ⟨true, "milvus"⟩⟩, ⟨false, "keywords"⟩,
         ⟨"weighted_sum", []⟩⟩
        ⟨.ok [], .ok [[("chunk_id", PyVal.str "c"), ("score", PyVal.num 5)]],
         .ok [], .ok [], .error "e"⟩).results.map FormattedResult.score
      = [PyVal.num 0] ∧
    ((([[("chunk_id", PyVal.str "c"), ("score", PyVal.num 5)]] : List Rec).take
        20).map formatRaw).map FormattedResult.score = [PyVal.num 5] ∧
    (retrieve
        ⟨"q", 20, ⟨true, ⟨true, "milvus"⟩⟩, ⟨false, "keywords"⟩,
         ⟨"weighted_sum", []⟩⟩
        ⟨.ok [], .ok [[("chunk_id", PyVal.str "c"), ("score", PyVal.num 5)]],
         .ok [], .ok [], .error "e"⟩).results
      ≠ (([[("chunk_id", PyVal.str "c"), ("score", PyVal.num 5)]] : List Rec).take
          20).map formatRaw := by
  have h₁ : (retrieve
      ⟨"q", 20, ⟨true, ⟨true, "milvus"⟩⟩, ⟨false, "keywords"⟩,
       ⟨"weighted_sum", []⟩⟩
      ⟨.ok [], .ok [[("chunk_id", PyVal.str "c"), ("score", PyVal.num 5)]],
       .ok [], .ok [], .error "e"⟩).results.map FormattedResult.score
      = [PyVal.num 0] := by
    simp +decide [retrieve, buildTasks, searchEsText, searchVector, caughtEmpty,
      fuse, weightedSum, wsAcc, wsRoute, wsStep, normalizeWeights, lookupWeight,
      alookup, getScore, getCid, minMaxNorm, listMin, listMax, updAcc, Entry.add,
      Entry.empty, copyFields, Entry.hasKey, setKey, sortScoreDesc,
      insertScoreDesc, accToFused, formatFused, FusedRec.get, PyVal.truthy,
      min_def, max_def]
  have h₂ : ((([[("chunk_id", PyVal.str "c"), ("score", PyVal.num 5)]] :
      List Rec).take 20).map formatRaw).map FormattedResult.score
      = [PyVal.num 5] := by
    simp +decide [formatRaw, alookup]
  refine ⟨h₁, h₂, fun heq => ?_⟩
  rw [heq, h₂] at h₁
  simp only [List.cons.injEq, PyVal.num.injEq, and_true] at h₁
  exact absurd h₁ (by norm_num)

/-- C5 amended: every backend exception is caught inside the route helpers
and converted to an empty result list, so `retrieve` behaves exactly as if
the backend had returned no results — no exception propagates (the model is
total).  The failing route therefore stays PRESENT (with an empty list) in
`results_by_route`, still counting toward the ≥2-routes fusion decision;
empty routes contribute no candidates, and every fused candidate originates
from some succeeding route's records. -/
theorem route_failure_isolation (req : Request)
    (a b c d : Except String (List Rec)) (l : Except String JVal) (e : String)
    (rb : List (String × List Rec)) (w : List (String × ℚ)) (k : ℕ) :
    retrieve req ⟨.error e, b, c, d, l⟩ = retrieve req ⟨.ok [], b, c, d, l⟩ ∧
    retrieve req ⟨a, .error e, c, d, l⟩ = retrieve req ⟨a, .ok [], c, d, l⟩ ∧
    retrieve req ⟨a, b, .error e, d, l⟩ = retrieve req ⟨a, b, .ok [], d, l⟩ ∧
    retrieve req ⟨a, b, c, .error e, l⟩ = retrieve req ⟨a, b, c, .ok [], l⟩ ∧
    (∀ fu ∈ weightedSum rb w, ∃ p ∈ rb, ∃ rec ∈ p.2, getCid rec = fu.chunk_id) ∧
    (∀ fu ∈ rrf rb k, ∃ p ∈ rb, ∃ rec ∈ p.2, getCid rec = fu.chunk_id) := by
  refine ⟨rfl, rfl, rfl, rfl, ?_, ?_⟩
  · intro fu hf
    obtain ⟨p, hp, hpe⟩ := weightedSum_mem hf
    have horig := mem_accKeys_wsAcc (c := p.1) (List.mem_map_of_mem Prod.fst hp)
    rw [← hpe]
    exact horig
  · intro fu hf
    obtain ⟨p, hp, hpe⟩ := rrf_mem hf
    have horig := mem_accKeys_rrfAcc (c := p.1) (List.mem_map_of_mem Prod.fst hp)
    rw [← hpe]
    exact horig

/-- Witness for C5's amended statement: a raising ES backend produces the
same response as an ES backend returning an empty list. -/
theorem route_failure_isolation_witness :
    retrieve
        ⟨"q", 20, ⟨true, ⟨true, "milvus"⟩⟩, ⟨false, "keywords"⟩,
         ⟨"weighted_sum", []⟩⟩
        ⟨.error "boom",
         .ok [[("chunk_id", PyVal.str "c"), ("score", PyVal.num 5)]],
         .ok [], .ok [], .error "e"⟩
      = retrieve
        ⟨"q", 20, ⟨true, ⟨true, "milvus"⟩⟩, ⟨false, "keywords"⟩,
         ⟨"weighted_sum", []⟩⟩
        ⟨.ok [],
         .ok [[("chunk_id", PyVal.str "c"), ("score", PyVal.num 5)]],
         .ok [], .ok [], .error "e"⟩ :=
  (route_failure_isolation
    ⟨"q", 20, ⟨true, ⟨true, "milvus"⟩⟩, ⟨false, "keywords"⟩,
     ⟨"weighted_sum", []⟩⟩
    (.ok []) (.ok [[("chunk_id", PyVal.str "c"), ("score", PyVal.num 5)]])
    (.ok []) (.ok []) (.error "e") "boom" [] [] 60).1

/-- C5 counterexample: the claim's "failing route is excluded from fusion
inputs and the other routes' results are unaffected" is false — with two
enabled routes where the ES backend raises and Milvus returns one candidate
with raw score 5, the failed route still counts as a present route, so the
fusion path (not the single-route path) runs and the response carries score
0 instead of the unaffected direct score 5. -/
theorem route_failure_isolation_cx :
    (retrieve
        ⟨"q", 20, ⟨true, ⟨true, "milvus"⟩⟩, ⟨false, "keywords"⟩,
         ⟨"weighted_sum", []⟩⟩
        ⟨.error "boom",
         .ok [[("chunk_id", PyVal.str "c"), ("score", PyVal.num 5)]],
         .ok [], .ok [], .error "e"⟩).results.map FormattedResult.score
      = [PyVal.num 0] ∧
    (retrieve
        ⟨"q", 20, ⟨true, ⟨true, "milvus"⟩⟩, ⟨false, "keywords"⟩,
         ⟨"weighted_sum", []⟩⟩
        ⟨.error "boom",
         .ok [[("chunk_id", PyVal.str "c"), ("score", PyVal.num 5)]],
         .ok [], .ok [], .error "e"⟩).results
      ≠ (([[("chunk_id", PyVal.str "c"), ("score", PyVal.num 5)]] :
          List Rec).take 20).map formatRaw := by
  have h₁ : (retrieve
      ⟨"q", 20, ⟨true, ⟨true, "milvus"⟩⟩, ⟨false, "keywords"⟩,
       ⟨"weighted_sum", []⟩⟩
      ⟨.error "boom",
       .ok [[("chunk_id", PyVal.str "c"), ("score", PyVal.num 5)]],
       .ok [], .ok [], .error "e"⟩).results.map FormattedResult.score
      = [PyVal.num 0] := by
    simp +decide [retrieve, buildTasks, searchEsText, searchVector, caughtEmpty,
      fuse, weightedSum, wsAcc, wsRoute, wsStep, normalizeWeights, lookupWeight,
      alookup, getScore, getCid, minMaxNorm, listMin, listMax, updAcc, Entry.add,
      Entry.empty, copyFields, Entry.hasKey, setKey, sortScoreDesc,
      insertScoreDesc, accToFused, formatFused, FusedRec.get, PyVal.truthy,
      min_def, max_def]
  have h₂ : ((([[("chunk_id", PyVal.str "c"), ("score", PyVal.num 5)]] :
      List Rec).take 20).map formatRaw).map FormattedResult.score
      = [PyVal.num 5] := by
    simp +decide [formatRaw, alookup]
  refine ⟨h₁, fun heq => ?_⟩
  rw [heq, h₂] at h₁
  simp only [List.cons.injEq, PyVal.num.injEq, and_true] at h₁
  exact absurd h₁ (by norm_num)

end DeepParser
